import Mathlib

/-!
Shallow embedding of the mini-os kernel and easy-fs filesystem core, together
with proofs about the embedded operations.  Definitions are translated from
the Rust sources under `src/`:

* `src/easy-fs/src/layout.rs`      (`DiskInode`)
* `src/easy-fs/src/bitmap.rs`      (`Bitmap`)
* `src/easy-fs/src/block_cache.rs` (`BlockCacheManager`)
* `src/os/src/task/mod.rs`         (signal checking)
* `src/os/src/task/process.rs`     (`change_program_brk`, `sys_waitpid`)
* `src/os/src/mm/memory_set.rs`    (`MemorySet`, `MapArea`)
* `src/os/src/sync/mutex.rs`       (`MutexBlocking`)
* `src/os/src/fs/pipe.rs`          (`PipeRingBuffer`)

Machine integers are modelled as `Nat`/`Int`; in-kernel panics (failed
`assert!`/`unwrap`) are modelled as `Option.none`.
-/

namespace MiniOS

/-! ## easy-fs: `DiskInode::total_blocks` (src/easy-fs/src/layout.rs) -/

/-- `BLOCK_SZ` from easy-fs. -/
def BLOCK_SZ : Nat := 512

/-- `INODE_DIRECT_COUNT` / `DIRECT_BOUND` from layout.rs. -/
def DIRECT_BOUND : Nat := 28

/-- `INODE_INDIRECT1_COUNT = BLOCK_SZ / 4`. -/
def INODE_INDIRECT1_COUNT : Nat := BLOCK_SZ / 4

/-- `INDIRECT1_BOUND = DIRECT_BOUND + INODE_INDIRECT1_COUNT`. -/
def INDIRECT1_BOUND : Nat := DIRECT_BOUND + INODE_INDIRECT1_COUNT

/-- `DiskInode::_data_blocks(size) = size.div_ceil(BLOCK_SZ)` (layout.rs). -/
def dataBlocks (size : Nat) : Nat := (size + BLOCK_SZ - 1) / BLOCK_SZ

/-- `DiskInode::total_blocks(size)` (layout.rs): data blocks plus the
indirect1 index block when more than `DIRECT_BOUND` data blocks are needed,
plus the indirect2 index block and the needed per-slot indirect1 blocks when
more than `INDIRECT1_BOUND` data blocks are needed. -/
def totalBlocks (size : Nat) : Nat :=
  let data_blocks := dataBlocks size
  let total1 := if data_blocks > DIRECT_BOUND then data_blocks + 1 else data_blocks
  if data_blocks > INDIRECT1_BOUND then
    total1 + 1 + (data_blocks - INDIRECT1_BOUND + INODE_INDIRECT1_COUNT - 1) / INODE_INDIRECT1_COUNT
  else total1

lemma dataBlocks_ceil (size m : Nat) : size ≤ 512 * m ↔ dataBlocks size ≤ m := by
  unfold dataBlocks BLOCK_SZ
  omega

lemma indirect2_ceil (d m : Nat) (h : 156 < d) :
    d - 156 ≤ 128 * m ↔ (d - 156 + 128 - 1) / 128 ≤ m := by
  omega

/-- C7: `data_blocks(size)` is exactly `⌈size/512⌉` (characterised by its
Galois property), and `total_blocks(size)` adds 1 for the indirect1 block
when data > 28, plus `1 + ⌈(data − 156)/128⌉` when data > 156. -/
theorem C7_total_blocks (size : Nat) :
    (∀ m, size ≤ 512 * m ↔ dataBlocks size ≤ m) ∧
    (dataBlocks size ≤ 28 → totalBlocks size = dataBlocks size) ∧
    (28 < dataBlocks size → dataBlocks size ≤ 156 →
      totalBlocks size = dataBlocks size + 1) ∧
    (156 < dataBlocks size →
      ∃ q, (∀ m, dataBlocks size - 156 ≤ 128 * m ↔ q ≤ m) ∧
        totalBlocks size = dataBlocks size + 1 + 1 + q) := by
  refine ⟨fun m => dataBlocks_ceil size m, ?_, ?_, ?_⟩
  · intro h
    simp only [totalBlocks, DIRECT_BOUND, INDIRECT1_BOUND, INODE_INDIRECT1_COUNT, BLOCK_SZ]
    norm_num
    split_ifs <;> omega
  · intro h1 h2
    simp only [totalBlocks, DIRECT_BOUND, INDIRECT1_BOUND, INODE_INDIRECT1_COUNT, BLOCK_SZ]
    norm_num
    split_ifs <;> omega
  · intro h
    refine ⟨(dataBlocks size - 156 + 128 - 1) / 128, fun m => indirect2_ceil _ m h, ?_⟩
    simp only [totalBlocks, DIRECT_BOUND, INDIRECT1_BOUND, INODE_INDIRECT1_COUNT, BLOCK_SZ]
    norm_num
    split_ifs <;> omega

/-- Witness for C7 at `size = 600`: 600 bytes need 2 data blocks and no
index blocks. -/
theorem C7_total_blocks_witness :
    totalBlocks 600 = dataBlocks 600 ∧ dataBlocks 600 = 2 := by
  have h := (C7_total_blocks 600).2.1 (by decide)
  exact ⟨h, by decide⟩

/-! ## os: blocking mutex (src/os/src/sync/mutex.rs) -/

/-- `MutexBlockingInner` from mutex.rs: the lock flag and the FIFO wait
queue of blocked threads (threads are identified by an abstract id). -/
structure MutexBlockingInner where
  locked : Bool
  wait_queue : List Nat
deriving Repr, DecidableEq

/-- `MutexBlocking::lock` called by thread `t`: if the mutex is locked, the
caller is appended to the wait queue and blocked (`block_current_and_run_next`,
second component `true`); otherwise the lock flag is set and the caller
proceeds (second component `false`). -/
def mutexLock (m : MutexBlockingInner) (t : Nat) : MutexBlockingInner × Bool :=
  if m.locked then ({ m with wait_queue := m.wait_queue ++ [t] }, true)
  else ({ m with locked := true }, false)

/-- `MutexBlocking::unlock`: asserts the mutex is locked (`none` models the
panic), pops the wait-queue head and wakes it (returned as `some w`) leaving
`locked` untouched, or clears `locked` when the queue is empty. -/
def mutexUnlock (m : MutexBlockingInner) : Option (MutexBlockingInner × Option Nat) :=
  if m.locked then
    match m.wait_queue with
    | w :: rest => some ({ locked := m.locked, wait_queue := rest }, some w)
    | [] => some ({ locked := false, wait_queue := [] }, none)
  else none

/-- C8: blocking mutex semantics. `lock` on a free mutex sets `locked` and
does not block; `lock` on a held mutex appends the caller to the wait queue
and blocks it.  `unlock` with a non-empty wait queue wakes the queue head and
leaves `locked = true` (direct hand-off); with an empty wait queue it sets
`locked = false`. -/
theorem C8_mutex_blocking (m : MutexBlockingInner) (t : Nat) :
    (m.locked = false →
      mutexLock m t = ({ locked := true, wait_queue := m.wait_queue }, false)) ∧
    (m.locked = true →
      mutexLock m t = ({ locked := true, wait_queue := m.wait_queue ++ [t] }, true)) ∧
    (∀ w rest, m.locked = true → m.wait_queue = w :: rest →
      mutexUnlock m = some ({ locked := true, wait_queue := rest }, some w)) ∧
    (m.locked = true → m.wait_queue = [] →
      mutexUnlock m = some ({ locked := false, wait_queue := [] }, none)) := by
  obtain ⟨l, q⟩ := m
  refine ⟨?_, ?_, ?_, ?_⟩
  · rintro rfl; simp [mutexLock]
  · rintro rfl; simp [mutexLock]
  · rintro w rest rfl rfl; simp [mutexUnlock]
  · rintro rfl rfl; simp [mutexUnlock]

/-- Witness for C8 on a concrete mutex state. -/
theorem C8_mutex_blocking_witness :
    mutexLock ⟨false, []⟩ 7 = (⟨true, []⟩, false) ∧
    mutexLock ⟨true, [1]⟩ 7 = (⟨true, [1, 7]⟩, true) ∧
    mutexUnlock ⟨true, [1, 7]⟩ = some (⟨true, [7]⟩, some 1) ∧
    mutexUnlock ⟨true, []⟩ = some (⟨false, []⟩, none) :=
  ⟨(C8_mutex_blocking ⟨false, []⟩ 7).1 rfl,
   (C8_mutex_blocking ⟨true, [1]⟩ 7).2.1 rfl,
   (C8_mutex_blocking ⟨true, [1, 7]⟩ 7).2.2.1 1 [7] rfl rfl,
   (C8_mutex_blocking ⟨true, []⟩ 7).2.2.2 rfl rfl⟩

/-! ## os: `sys_waitpid` (src/os/src/syscall/process.rs) -/

/-- The slice of a child `ProcessControlBlock` that `sys_waitpid` inspects:
its pid, its zombie flag, and its exit code. -/
structure ChildProc where
  pid : Nat
  is_zombie : Bool
  exit_code : Int
deriving Repr, DecidableEq

/-- The pid filter of `sys_waitpid`: `pid == -1 || pid as usize == p.getpid()`.
The `as usize` cast of the `isize` argument is two's-complement, i.e. the
value modulo `2^64`. -/
def waitpidMatches (pid : Int) (p : ChildProc) : Bool :=
  pid == -1 || (pid % (2 ^ 64 : Int)).toNat == p.pid

/-- `sys_waitpid(pid, exit_code_ptr)` acting on the caller's children list.
Returns the syscall result, the new children list, and the exit code written
through the user pointer (if any): when no child matches, `-1`; when a
matching zombie child is found (first such index), it is removed from the
list, its exit code is written, and its pid is returned; otherwise `-2`. -/
def sysWaitpid (pid : Int) (children : List ChildProc) :
    Int × List ChildProc × Option Int :=
  if !children.any (waitpidMatches pid) then (-1, children, none)
  else
    match children.findIdx? (fun p => p.is_zombie && waitpidMatches pid p) with
    | some idx =>
      let child := children.getD idx ⟨0, false, 0⟩
      ((child.pid : Int), children.eraseIdx idx, some child.exit_code)
    | none => (-2, children, none)

/-- C2: behaviour of `sys_waitpid`. (a) if no child matches `pid`
(`-1` matches any) the call returns `-1` with the children untouched;
(b) if matching children exist but none is a zombie it returns `-2` with the
children untouched; (c) otherwise the first matching zombie child is removed
from the list, its exit code is written through the user pointer, and its pid
is returned — and when no other child shares that pid (pids are unique and
fit in a `usize`), a second `waitpid` for the reaped pid returns `-1`. -/
theorem C2_sys_waitpid (pid : Int) (children : List ChildProc) :
    ((∀ p ∈ children, waitpidMatches pid p = false) →
      sysWaitpid pid children = (-1, children, none)) ∧
    ((∃ p ∈ children, waitpidMatches pid p = true) →
      (∀ p ∈ children, waitpidMatches pid p = true → p.is_zombie = false) →
      sysWaitpid pid children = (-2, children, none)) ∧
    (∀ q ∈ children, q.is_zombie = true → waitpidMatches pid q = true →
      ∃ idx, ∃ h : idx < children.length,
        children[idx].is_zombie = true ∧
        waitpidMatches pid children[idx] = true ∧
        sysWaitpid pid children =
          ((children[idx].pid : Int), children.eraseIdx idx,
            some children[idx].exit_code) ∧
        (children[idx].pid < 2 ^ 64 →
          (∀ r ∈ children.eraseIdx idx, r.pid ≠ children[idx].pid) →
          (sysWaitpid (children[idx].pid : Int)
            (children.eraseIdx idx)).1 = -1)) := by
  refine ⟨?_, ?_, ?_⟩
  · intro hno
    have : children.any (waitpidMatches pid) = false := by
      simp only [List.any_eq_false]
      intro x hx
      simp [hno x hx]
    simp [sysWaitpid, this]
  · intro ⟨p, hp, hpm⟩ hnz
    have hany : children.any (waitpidMatches pid) = true := by
      simp only [List.any_eq_true]
      exact ⟨p, hp, hpm⟩
    have hfind : children.findIdx? (fun p => p.is_zombie && waitpidMatches pid p) = none := by
      rw [List.findIdx?_eq_none_iff]
      intro x hx
      by_cases hm : waitpidMatches pid x
      · simp [hnz x hx hm]
      · simp [hm]
    simp [sysWaitpid, hany, hfind]
  · intro q hq hqz hqm
    have hany : children.any (waitpidMatches pid) = true := by
      simp only [List.any_eq_true]
      exact ⟨q, hq, hqm⟩
    have hfind := @List.findIdx?_eq_some_of_exists _ children
      (fun p => p.is_zombie && waitpidMatches pid p)
      ⟨q, hq, by simp [hqz, hqm]⟩
    set idx := children.findIdx (fun p => p.is_zombie && waitpidMatches pid p) with hidx
    obtain ⟨hlt, hpred, -⟩ := List.findIdx?_eq_some_iff_getElem.mp hfind
    simp only [Bool.and_eq_true] at hpred
    refine ⟨idx, hlt, hpred.1, hpred.2, ?_, ?_⟩
    · simp [sysWaitpid, hany, hfind, List.getElem?_eq_getElem hlt]
    · intro h64 hun
      have hall : ∀ r ∈ children.eraseIdx idx,
          waitpidMatches (children[idx].pid : Int) r = false := by
        intro r hr
        have hne := hun r hr
        simp only [waitpidMatches]
        have h1 : ¬((children[idx].pid : Int) == -1) = true := by
          simp only [beq_iff_eq]
          omega
        have h2 : ¬((((children[idx].pid : Int)) % (2 ^ 64 : Int)).toNat == r.pid) = true := by
          simp only [beq_iff_eq]
          intro hc
          apply hne
          omega
        simp only [Bool.or_eq_false_iff]
        exact ⟨by simp only [Bool.not_eq_true] at h1 ⊢; exact h1,
          by simp only [Bool.not_eq_true] at h2 ⊢; exact h2⟩
      have hnone : (children.eraseIdx idx).any
          (waitpidMatches (children[idx].pid : Int)) = false := by
        simp only [List.any_eq_false]
        intro x hx
        simp [hall x hx]
      simp [sysWaitpid, hnone]

/-- Witness for C2: a parent with one zombie child of pid 5 reaps it, and
non-zombie / non-matching cases give -2 and -1. -/
theorem C2_sys_waitpid_witness :
    sysWaitpid 5 [⟨5, true, 3⟩] = (5, [], some 3) ∧
    sysWaitpid (-1) [⟨4, false, 0⟩] = (-2, [⟨4, false, 0⟩], none) ∧
    sysWaitpid 9 [⟨4, false, 0⟩] = (-1, [⟨4, false, 0⟩], none) := by
  refine ⟨?_, ?_, ?_⟩
  · obtain ⟨idx, h, hz, hm, heq, -⟩ :=
      (C2_sys_waitpid 5 [⟨5, true, 3⟩]).2.2 ⟨5, true, 3⟩ (by simp) rfl (by decide)
    have hidx : idx = 0 := by
      simp only [List.length_singleton] at h
      omega
    subst hidx
    simp only [List.eraseIdx_zero, List.tail_cons] at heq
    exact heq
  · exact (C2_sys_waitpid (-1) [⟨4, false, 0⟩]).2.1
      ⟨⟨4, false, 0⟩, by simp, by decide⟩ (by intro p hp _; simp at hp; simp [hp])
  · exact (C2_sys_waitpid 9 [⟨4, false, 0⟩]).1 (by intro p hp; simp at hp; simp [hp]; decide)

/-! ## easy-fs: block cache manager (src/easy-fs/src/block_cache.rs) -/

/-- `BLOCK_CACHE_SIZE` from block_cache.rs. -/
def BLOCK_CACHE_SIZE : Nat := 16

/-- One `(usize, Arc<Mutex<BlockCache>>)` entry of the manager's queue:
the block id and the `Arc` strong count of the cached handle. -/
structure CacheEntry where
  block_id : Nat
  refcount : Nat
deriving Repr, DecidableEq

/-- Outcome of `BlockCacheManager::get_block_cache`: either the cached entry
at queue index `i` was cloned and returned (hit), or a freshly loaded block
was inserted, evicting the block id `ev` first if the queue was full. -/
inductive GetOutcome where
  | hit (i : Nat)
  | missInsert (ev : Option Nat)
deriving Repr, DecidableEq

/-- `BlockCacheManager::get_block_cache(block_id)` acting on the queue.
On a hit the existing entry's `Arc` is cloned (its strong count grows by one)
and returned.  On a miss with a full queue, the first entry in FIFO order
whose strong count is exactly one is removed; if every entry is referenced
elsewhere the code panics (`none`).  The newly loaded block is pushed at the
tail with strong count 2 (one reference in the queue, one returned). -/
def getBlockCache (q : List CacheEntry) (bid : Nat) :
    Option (List CacheEntry × GetOutcome) :=
  match q.findIdx? (fun e => e.block_id == bid) with
  | some i =>
    some (q.set i ⟨(q.getD i ⟨0, 0⟩).block_id, (q.getD i ⟨0, 0⟩).refcount + 1⟩,
      GetOutcome.hit i)
  | none =>
    if q.length = BLOCK_CACHE_SIZE then
      match q.findIdx? (fun e => e.refcount == 1) with
      | some j =>
        some (q.eraseIdx j ++ [⟨bid, 2⟩], GetOutcome.missInsert (some (q.getD j ⟨0, 0⟩).block_id))
      | none => none
    else
      some (q ++ [⟨bid, 2⟩], GetOutcome.missInsert none)

/-- C5: `get_block_cache` semantics. (a) if `block_id` is cached (first at
index `i`) the existing entry is returned as a fresh shared handle: no
eviction, no load, only that entry's strong count grows; (b) on a miss at
capacity 16, the first entry in FIFO order with strong count exactly one is
evicted and the newly loaded block is inserted at the tail; (c) on a miss at
capacity with every entry's strong count different from one, the call panics
(`none`); (d) on a miss below capacity the new block is appended at the
tail. -/
theorem C5_get_block_cache (q : List CacheEntry) (bid : Nat) :
    (∀ i, i < q.length → (q.getD i ⟨0, 0⟩).block_id = bid →
      (∀ j, j < i → (q.getD j ⟨0, 0⟩).block_id ≠ bid) →
      getBlockCache q bid =
        some (q.set i ⟨bid, (q.getD i ⟨0, 0⟩).refcount + 1⟩, GetOutcome.hit i)) ∧
    ((∀ e ∈ q, e.block_id ≠ bid) → q.length = 16 →
      (∀ j, j < q.length → (q.getD j ⟨0, 0⟩).refcount = 1 →
        (∀ k, k < j → (q.getD k ⟨0, 0⟩).refcount ≠ 1) →
        getBlockCache q bid =
          some (q.eraseIdx j ++ [⟨bid, 2⟩],
            GetOutcome.missInsert (some (q.getD j ⟨0, 0⟩).block_id))) ∧
      ((∀ e ∈ q, e.refcount ≠ 1) → getBlockCache q bid = none)) ∧
    ((∀ e ∈ q, e.block_id ≠ bid) → q.length ≠ 16 →
      getBlockCache q bid = some (q ++ [⟨bid, 2⟩], GetOutcome.missInsert none)) := by
  refine ⟨?_, fun hmiss hfull => ⟨?_, ?_⟩, ?_⟩
  · intro i h hbid hfirst
    rw [List.getD_eq_getElem?_getD, List.getElem?_eq_getElem h, Option.getD_some] at hbid
    have hfind : q.findIdx? (fun e => e.block_id == bid) = some i := by
      rw [List.findIdx?_eq_some_iff_getElem]
      refine ⟨h, by simp [hbid], ?_⟩
      intro j hji
      have hj : j < q.length := hji.trans h
      have := hfirst j hji
      rw [List.getD_eq_getElem?_getD, List.getElem?_eq_getElem hj] at this
      simp only [Option.getD_some] at this
      simp [this]
    simp [getBlockCache, hfind, List.getD_eq_getElem?_getD, List.getElem?_eq_getElem h, hbid]
  · intro j h hrc hfirst
    rw [List.getD_eq_getElem?_getD, List.getElem?_eq_getElem h, Option.getD_some] at hrc
    have hnone : q.findIdx? (fun e => e.block_id == bid) = none := by
      rw [List.findIdx?_eq_none_iff]
      intro e he
      simp [hmiss e he]
    have hfind : q.findIdx? (fun e => e.refcount == 1) = some j := by
      rw [List.findIdx?_eq_some_iff_getElem]
      refine ⟨h, by simp [hrc], ?_⟩
      intro k hkj
      have hk : k < q.length := hkj.trans h
      have := hfirst k hkj
      rw [List.getD_eq_getElem?_getD, List.getElem?_eq_getElem hk] at this
      simp only [Option.getD_some] at this
      simp [this]
    simp [getBlockCache, hnone, hfull, BLOCK_CACHE_SIZE, hfind,
      List.getD_eq_getElem?_getD, List.getElem?_eq_getElem h]
  · intro hnotone
    have hnone : q.findIdx? (fun e => e.block_id == bid) = none := by
      rw [List.findIdx?_eq_none_iff]
      intro e he
      simp [hmiss e he]
    have hfind : q.findIdx? (fun e => e.refcount == 1) = none := by
      rw [List.findIdx?_eq_none_iff]
      intro e he
      simp [hnotone e he]
    simp [getBlockCache, hnone, hfull, BLOCK_CACHE_SIZE, hfind]
  · intro hmiss hnotfull
    have hnone : q.findIdx? (fun e => e.block_id == bid) = none := by
      rw [List.findIdx?_eq_none_iff]
      intro e he
      simp [hmiss e he]
    simp [getBlockCache, hnone, BLOCK_CACHE_SIZE, hnotfull]

/-- Witness for C5: a hit on a two-entry queue, an eviction on a full queue
whose second entry is unreferenced, a panic when all 16 entries are
referenced, and a plain append below capacity. -/
theorem C5_get_block_cache_witness :
    getBlockCache [⟨3, 1⟩, ⟨7, 2⟩] 7 = some ([⟨3, 1⟩, ⟨7, 3⟩], GetOutcome.hit 1) ∧
    getBlockCache (List.replicate 15 (⟨9, 2⟩ : CacheEntry) ++ [⟨4, 1⟩]) 5 =
      some ((List.replicate 15 (⟨9, 2⟩ : CacheEntry) ++ [⟨5, 2⟩]),
        GetOutcome.missInsert (some 4)) ∧
    getBlockCache (List.replicate 16 (⟨9, 2⟩ : CacheEntry)) 5 = none ∧
    getBlockCache [⟨3, 1⟩] 5 = some ([⟨3, 1⟩, ⟨5, 2⟩], GetOutcome.missInsert none) := by
  have h := C5_get_block_cache [⟨3, 1⟩, ⟨7, 2⟩] 7
  refine ⟨?_, ?_, ?_, ?_⟩
  · have := h.1 1 (by decide) (by decide) (by decide)
    simpa using this
  · have hq := C5_get_block_cache (List.replicate 15 (⟨9, 2⟩ : CacheEntry) ++ [⟨4, 1⟩]) 5
    have := (hq.2.1 (by decide) (by decide)).1 15 (by decide) (by decide) (by decide)
    simpa using this
  · have hq := C5_get_block_cache (List.replicate 16 (⟨9, 2⟩ : CacheEntry)) 5
    exact (hq.2.1 (by decide) (by decide)).2 (by decide)
  · have hq := C5_get_block_cache [⟨3, 1⟩] 5
    exact hq.2.2 (by decide) (by decide)

/-! ## easy-fs: bitmap allocator (src/easy-fs/src/bitmap.rs) -/

/-- `u64::MAX`. -/
def U64MAX : Nat := 2 ^ 64 - 1

/-- `BLOCK_BITS = BLOCK_SZ * 8` from bitmap.rs. -/
def BLOCK_BITS : Nat := BLOCK_SZ * 8

/-- `u64::trailing_ones`: the number of trailing one bits, i.e. the index of
the lowest zero bit. -/
def lowestZeroBit (v : Nat) : Nat :=
  if v % 2 = 0 then 0 else 1 + lowestZeroBit (v / 2)
decreasing_by
  simp_wf
  omega

/-- A bitmap-block store: block index → u64 index within the block → u64
value, with a single u64 updated in place (through the block cache). -/
def bitmapUpdate (bb : Nat → Nat → Nat) (bid j v : Nat) : Nat → Nat → Nat :=
  fun b i => if b = bid ∧ i = j then v else bb b i

/-- The inner scan of `Bitmap::alloc`:
`bitmap_block.iter().enumerate().find(|bits64| **bits64 != u64::MAX)`,
searching indices `j, j+1, …` while `remaining` counts down. -/
def findFromIdx (f : Nat → Nat) (j remaining : Nat) : Option Nat :=
  match remaining with
  | 0 => none
  | r + 1 => if f j ≠ U64MAX then some j else findFromIdx f (j + 1) r

/-- The outer loop of `Bitmap::alloc` over bitmap blocks `start, start+1, …`
(`remaining` counts down from `self.blocks`).  On the first block holding a
not-all-ones u64 it sets that u64's lowest zero bit and returns
`block_id * BLOCK_BITS + bits64_pos * 64 + inner_pos`. -/
def bitmapAllocFrom (bb : Nat → Nat → Nat) (start remaining : Nat) :
    Option (Nat × (Nat → Nat → Nat)) :=
  match remaining with
  | 0 => none
  | r + 1 =>
    match findFromIdx (bb start) 0 64 with
    | some j =>
      let v := bb start j
      let inner := lowestZeroBit v
      some (start * BLOCK_BITS + j * 64 + inner,
        bitmapUpdate bb start j (v ||| 2 ^ inner))
    | none => bitmapAllocFrom bb (start + 1) r

/-- `Bitmap::alloc` for a bitmap of `blocks` bitmap blocks. -/
def bitmapAlloc (blocks : Nat) (bb : Nat → Nat → Nat) :
    Option (Nat × (Nat → Nat → Nat)) :=
  bitmapAllocFrom bb 0 blocks

/-- Global bit `q` of the bitmap: bit `q % 64` of u64 `q % 4096 / 64` of
bitmap block `q / 4096` (`decomposition` in bitmap.rs). -/
def bitmapTestBit (bb : Nat → Nat → Nat) (q : Nat) : Bool :=
  (bb (q / 4096) (q % 4096 / 64)).testBit (q % 64)

lemma lowestZeroBit_spec (v : Nat) :
    v.testBit (lowestZeroBit v) = false ∧ ∀ k, k < lowestZeroBit v → v.testBit k = true := by
  induction v using Nat.strong_induction_on with
  | _ v ih =>
    rw [lowestZeroBit]
    by_cases h : v % 2 = 0
    · simp only [h, if_true, if_pos]
      refine ⟨?_, ?_⟩
      · rw [Nat.testBit_zero]
        simp
        omega
      · intro k hk
        omega
    · have hlt : v / 2 < v := by omega
      obtain ⟨ih1, ih2⟩ := ih (v / 2) hlt
      simp only [h, if_false, if_neg, not_false_iff]
      refine ⟨?_, ?_⟩
      · have : 1 + lowestZeroBit (v / 2) = (lowestZeroBit (v / 2)).succ := by omega
        rw [this, Nat.testBit_succ]
        exact ih1
      · intro k hk
        match k with
        | 0 =>
          rw [Nat.testBit_zero]
          simp
          omega
        | j + 1 =>
          rw [Nat.testBit_succ]
          exact ih2 j (by omega)

lemma lowestZeroBit_lt_64 (v : Nat) (h1 : v < 2 ^ 64) (h2 : v ≠ U64MAX) :
    lowestZeroBit v < 64 := by
  obtain ⟨k, hk64, hkbit⟩ : ∃ k, k < 64 ∧ v.testBit k = false := by
    by_contra hc
    push_neg at hc
    apply h2
    apply Nat.eq_of_testBit_eq
    intro i
    rw [U64MAX, Nat.testBit_two_pow_sub_one]
    by_cases hi : i < 64
    · have := hc i hi
      simp [hi]
      simpa using this
    · have : v.testBit i = false := by
        apply Nat.testBit_lt_two_pow
        calc v < 2 ^ 64 := h1
        _ ≤ 2 ^ i := Nat.pow_le_pow_right (by omega) (by omega)
      simp [hi, this]
  by_contra hge
  push_neg at hge
  have := (lowestZeroBit_spec v).2 k (lt_of_lt_of_le hk64 hge)
  rw [this] at hkbit
  exact absurd hkbit (by simp)

lemma findFromIdx_some {f : Nat → Nat} {j rem k : Nat}
    (h : findFromIdx f j rem = some k) :
    j ≤ k ∧ k < j + rem ∧ f k ≠ U64MAX ∧ ∀ t, j ≤ t → t < k → f t = U64MAX := by
  induction rem generalizing j with
  | zero => simp [findFromIdx] at h
  | succ r ih =>
    rw [findFromIdx] at h
    by_cases hj : f j ≠ U64MAX
    · rw [if_pos hj, Option.some.injEq] at h
      subst h
      exact ⟨le_refl _, by omega, hj, fun t ht1 ht2 => absurd (lt_of_le_of_lt ht1 ht2) (lt_irrefl _)⟩
    · rw [if_neg hj] at h
      push_neg at hj
      obtain ⟨h1, h2, h3, h4⟩ := ih h
      refine ⟨by omega, by omega, h3, ?_⟩
      intro t ht1 ht2
      rcases Nat.eq_or_lt_of_le ht1 with rfl | hlt
      · exact hj
      · exact h4 t hlt ht2

lemma findFromIdx_none {f : Nat → Nat} {j rem : Nat}
    (h : findFromIdx f j rem = none) : ∀ t, j ≤ t → t < j + rem → f t = U64MAX := by
  induction rem generalizing j with
  | zero => intro t _ _; omega
  | succ r ih =>
    rw [findFromIdx] at h
    by_cases hj : f j ≠ U64MAX
    · rw [if_pos hj] at h
      exact absurd h (by simp)
    · rw [if_neg hj] at h
      push_neg at hj
      intro t ht1 ht2
      rcases Nat.eq_or_lt_of_le ht1 with rfl | hlt
      · exact hj
      · exact ih h t hlt (by omega)

lemma findFromIdx_none_of_all {f : Nat → Nat} {j rem : Nat}
    (h : ∀ t, j ≤ t → t < j + rem → f t = U64MAX) : findFromIdx f j rem = none := by
  induction rem generalizing j with
  | zero => rfl
  | succ r ih =>
    rw [findFromIdx]
    have hj : f j = U64MAX := h j (le_refl _) (by omega)
    rw [if_neg (by simp [hj])]
    exact ih (fun t ht1 ht2 => h t (by omega) (by omega))

lemma bitmapAllocFrom_some {bb : Nat → Nat → Nat} {start rem pos : Nat}
    {bb2 : Nat → Nat → Nat}
    (h : bitmapAllocFrom bb start rem = some (pos, bb2)) :
    ∃ bid j, start ≤ bid ∧ bid < start + rem ∧ j < 64 ∧
      (∀ b, start ≤ b → b < bid → ∀ t, t < 64 → bb b t = U64MAX) ∧
      (∀ t, t < j → bb bid t = U64MAX) ∧
      bb bid j ≠ U64MAX ∧
      pos = bid * BLOCK_BITS + j * 64 + lowestZeroBit (bb bid j) ∧
      bb2 = bitmapUpdate bb bid j (bb bid j ||| 2 ^ lowestZeroBit (bb bid j)) := by
  induction rem generalizing start with
  | zero => simp [bitmapAllocFrom] at h
  | succ r ih =>
    rw [bitmapAllocFrom] at h
    rcases hfind : findFromIdx (bb start) 0 64 with _ | j
    · rw [hfind] at h
      obtain ⟨bid, j, hb1, hb2, hj, hbefore, hwords, hne, hpos, hbb2⟩ := ih h
      refine ⟨bid, j, by omega, by omega, hj, ?_, hwords, hne, hpos, hbb2⟩
      intro b hb1' hb2' t ht
      rcases Nat.eq_or_lt_of_le hb1' with rfl | hlt
      · exact findFromIdx_none hfind t (by omega) (by omega)
      · exact hbefore b hlt hb2' t ht
    · rw [hfind] at h
      simp only [Option.some.injEq, Prod.mk.injEq] at h
      obtain ⟨hpos, hbb2⟩ := h
      obtain ⟨-, hjlt, hne, hbelow⟩ := findFromIdx_some hfind
      exact ⟨start, j, le_refl _, by omega, by omega,
        fun b hb1 hb2 t ht => absurd (lt_of_le_of_lt hb1 hb2) (lt_irrefl _),
        fun t ht => hbelow t (by omega) ht, hne, hpos.symm, hbb2.symm⟩

lemma bitmapAllocFrom_none {bb : Nat → Nat → Nat} {start rem : Nat}
    (h : bitmapAllocFrom bb start rem = none) :
    ∀ b, start ≤ b → b < start + rem → ∀ t, t < 64 → bb b t = U64MAX := by
  induction rem generalizing start with
  | zero => intro b _ _; omega
  | succ r ih =>
    rw [bitmapAllocFrom] at h
    rcases hfind : findFromIdx (bb start) 0 64 with _ | j
    · rw [hfind] at h
      intro b hb1 hb2 t ht
      rcases Nat.eq_or_lt_of_le hb1 with rfl | hlt
      · exact findFromIdx_none hfind t (by omega) (by omega)
      · exact ih h b hlt (by omega) t ht
    · rw [hfind] at h
      simp at h

lemma bitmapAllocFrom_none_of_all {bb : Nat → Nat → Nat} {start rem : Nat}
    (h : ∀ b, start ≤ b → b < start + rem → ∀ t, t < 64 → bb b t = U64MAX) :
    bitmapAllocFrom bb start rem = none := by
  induction rem generalizing start with
  | zero => rfl
  | succ r ih =>
    rw [bitmapAllocFrom]
    have hfind : findFromIdx (bb start) 0 64 = none :=
      findFromIdx_none_of_all (fun t _ ht2 => h start (le_refl _) (by omega) t (by omega))
    rw [hfind]
    exact ih (fun b hb1 hb2 t ht => h b (by omega) (by omega) t ht)

lemma u64_full_of_bits {v : Nat} (hv : v < 2 ^ 64)
    (h : ∀ k, k < 64 → v.testBit k = true) : v = U64MAX := by
  apply Nat.eq_of_testBit_eq
  intro i
  rw [U64MAX, Nat.testBit_two_pow_sub_one]
  by_cases hi : i < 64
  · simp [hi, h i hi]
  · have : v.testBit i = false := by
      apply Nat.testBit_lt_two_pow
      calc v < 2 ^ 64 := hv
      _ ≤ 2 ^ i := Nat.pow_le_pow_right (by omega) (by omega)
    simp [hi, this]

lemma u64max_testBit {k : Nat} (hk : k < 64) : U64MAX.testBit k = true := by
  rw [U64MAX, Nat.testBit_two_pow_sub_one]
  simp [hk]

/-- C6: `Bitmap::alloc` returns the lowest clear bit of the whole bitmap.
When it succeeds, the returned position is in range, decomposes as
`block_index * 4096 + u64_index * 64 + bit_index` with the scan finding the
first not-all-ones u64 and its lowest zero bit, was clear beforehand (never
an already-set bit), every lower bit was set, and the new state has exactly
that bit set in addition.  It returns `none` exactly when every bit of the
bitmap is set. -/
theorem C6_bitmap_alloc (blocks : Nat) (bb : Nat → Nat → Nat)
    (hbb : ∀ b j, bb b j < 2 ^ 64) :
    (∀ pos bb2, bitmapAlloc blocks bb = some (pos, bb2) →
      pos < blocks * 4096 ∧
      (∃ bid j, bid < blocks ∧ j < 64 ∧
        (∀ b, b < bid → ∀ t, t < 64 → bb b t = U64MAX) ∧
        (∀ t, t < j → bb bid t = U64MAX) ∧ bb bid j ≠ U64MAX ∧
        pos = bid * 4096 + j * 64 + lowestZeroBit (bb bid j)) ∧
      bitmapTestBit bb pos = false ∧
      (∀ q, q < pos → bitmapTestBit bb q = true) ∧
      (∀ q, bitmapTestBit bb2 q = if q = pos then true else bitmapTestBit bb q)) ∧
    (bitmapAlloc blocks bb = none ↔
      ∀ q, q < blocks * 4096 → bitmapTestBit bb q = true) := by
  have hBB : BLOCK_BITS = 4096 := by norm_num [BLOCK_BITS, BLOCK_SZ]
  constructor
  · intro pos bb2 h
    obtain ⟨bid, j, hb0, hbid, hj, hbefore, hwords, hne, hpos, hbb2⟩ :=
      bitmapAllocFrom_some h
    rw [hBB] at hpos
    have hinner : lowestZeroBit (bb bid j) < 64 :=
      lowestZeroBit_lt_64 _ (hbb bid j) hne
    set inner := lowestZeroBit (bb bid j) with hinner_def
    refine ⟨by omega, ⟨bid, j, by omega, hj, fun b hb => hbefore b (by omega) hb,
      hwords, hne, hpos⟩, ?_, ?_, ?_⟩
    · have h1 : pos / 4096 = bid := by omega
      have h2 : pos % 4096 / 64 = j := by omega
      have h3 : pos % 64 = inner := by omega
      rw [bitmapTestBit, h1, h2, h3]
      exact (lowestZeroBit_spec (bb bid j)).1
    · intro q hq
      have hqj : q % 4096 / 64 < 64 := by omega
      have hqk : q % 64 < 64 := by omega
      rw [bitmapTestBit]
      rcases (by omega :
          q / 4096 < bid ∨
          (q / 4096 = bid ∧ q % 4096 / 64 < j) ∨
          (q / 4096 = bid ∧ q % 4096 / 64 = j ∧ q % 64 < inner)) with hc | hc | hc
      · rw [hbefore (q / 4096) (by omega) hc _ hqj]
        exact u64max_testBit hqk
      · rw [hc.1, hwords _ hc.2]
        exact u64max_testBit hqk
      · rw [hc.1, hc.2.1]
        exact (lowestZeroBit_spec (bb bid j)).2 _ hc.2.2
    · intro q
      have hqj : q % 4096 / 64 < 64 := by omega
      have hqk : q % 64 < 64 := by omega
      rw [hbb2, bitmapTestBit, bitmapTestBit, bitmapUpdate]
      by_cases hw : q / 4096 = bid ∧ q % 4096 / 64 = j
      · rw [if_pos hw]
        rw [Nat.testBit_or, Nat.testBit_two_pow]
        by_cases hqp : q = pos
        · rw [if_pos hqp]
          have : inner = q % 64 := by omega
          simp [this]
        · have hkne : inner ≠ q % 64 := by omega
          have : (decide (inner = q % 64)) = false := by simp [hkne]
          rw [this, Bool.or_false, if_neg hqp, hw.1, hw.2]
      · rw [if_neg hw]
        have hqp : q ≠ pos := by
          intro hc
          subst hc
          exact hw ⟨by omega, by omega⟩
        rw [if_neg hqp]
  · constructor
    · intro h q hq
      have hall := bitmapAllocFrom_none h
      have hqj : q % 4096 / 64 < 64 := by omega
      have hqk : q % 64 < 64 := by omega
      rw [bitmapTestBit, hall (q / 4096) (by omega) (by omega) _ hqj]
      exact u64max_testBit hqk
    · intro h
      apply bitmapAllocFrom_none_of_all
      intro b _ hb t ht
      apply u64_full_of_bits (hbb b t)
      intro k hk
      have hq : b * 4096 + t * 64 + k < blocks * 4096 := by omega
      have := h (b * 4096 + t * 64 + k) hq
      rw [bitmapTestBit] at this
      have h1 : (b * 4096 + t * 64 + k) / 4096 = b := by omega
      have h2 : (b * 4096 + t * 64 + k) % 4096 / 64 = t := by omega
      have h3 : (b * 4096 + t * 64 + k) % 64 = k := by omega
      rwa [h1, h2, h3] at this

/-- Witness for C6: a bitmap with two blocks whose first block's first u64 is
`0b111` allocates bit 3 and sets it. -/
theorem C6_bitmap_alloc_witness :
    ∃ bb2, bitmapAlloc 2 (fun _ _ => 7) = some (3, bb2) ∧
      bitmapTestBit (fun _ _ => 7) 3 = false ∧
      (∀ q, q < 3 → bitmapTestBit (fun _ _ => 7) q = true) ∧
      bitmapTestBit bb2 3 = true := by
  have halloc : bitmapAlloc 2 (fun _ _ => 7) =
      some (3, bitmapUpdate (fun _ _ => 7) 0 0 (7 ||| 2 ^ lowestZeroBit 7)) := by
    have h7 : lowestZeroBit 7 = 3 := by
      rw [lowestZeroBit]
      norm_num
      rw [lowestZeroBit]
      norm_num
      rw [lowestZeroBit]
      norm_num
      rw [lowestZeroBit]
      norm_num
    rw [bitmapAlloc, bitmapAllocFrom]
    have hfind : findFromIdx (fun _ => (7 : Nat)) 0 64 = some 0 := by
      rw [findFromIdx]
      norm_num [U64MAX]
    rw [hfind]
    simp only [h7]
    norm_num [BLOCK_BITS, BLOCK_SZ]
  refine ⟨_, halloc, ?_, ?_, ?_⟩
  · exact ((C6_bitmap_alloc 2 (fun _ _ => 7) (by intro b j; norm_num)).1 3 _ halloc).2.2.1
  · exact ((C6_bitmap_alloc 2 (fun _ _ => 7) (by intro b j; norm_num)).1 3 _ halloc).2.2.2.1
  · have := ((C6_bitmap_alloc 2 (fun _ _ => 7) (by intro b j; norm_num)).1 3 _ halloc).2.2.2.2 3
    simpa using this

/-! ## os: pipe ring buffer (src/os/src/fs/pipe.rs) -/

/-- `RING_BUFFER_SIZE` from pipe.rs. -/
def RING_BUFFER_SIZE : Nat := 32

/-- `RingBufferStatus` from pipe.rs. -/
inductive RingBufferStatus where
  | Full
  | Empty
  | Normal
deriving Repr, DecidableEq

/-- `PipeRingBuffer` from pipe.rs (the `write_end` weak reference is not part
of the byte-transport state and is omitted). -/
structure PipeRingBuffer where
  arr : Nat → Nat
  head : Nat
  tail : Nat
  status : RingBufferStatus

/-- `PipeRingBuffer::new`. -/
def pipeNew : PipeRingBuffer :=
  { arr := fun _ => 0, head := 0, tail := 0, status := RingBufferStatus.Empty }

/-- `PipeRingBuffer::write_byte`. -/
def writeByte (s : PipeRingBuffer) (byte : Nat) : PipeRingBuffer :=
  let s := { s with status := RingBufferStatus.Normal }
  let s := { s with arr := fun i => if i = s.tail then byte else s.arr i }
  let s := { s with tail := (s.tail + 1) % RING_BUFFER_SIZE }
  if s.tail = s.head then { s with status := RingBufferStatus.Full } else s

/-- `PipeRingBuffer::read_byte`: returns the byte at `head` and the new
state. -/
def readByte (s : PipeRingBuffer) : PipeRingBuffer × Nat :=
  let s := { s with status := RingBufferStatus.Normal }
  let c := s.arr s.head
  let s := { s with head := (s.head + 1) % RING_BUFFER_SIZE }
  if s.head = s.tail then ({ s with status := RingBufferStatus.Empty }, c)
  else (s, c)

/-- `PipeRingBuffer::available_read`. -/
def availableRead (s : PipeRingBuffer) : Nat :=
  if s.status = RingBufferStatus.Empty then 0
  else if s.tail > s.head then s.tail - s.head
  else s.tail + RING_BUFFER_SIZE - s.head

/-- `PipeRingBuffer::available_write`. -/
def availableWrite (s : PipeRingBuffer) : Nat :=
  if s.status = RingBufferStatus.Full then 0
  else RING_BUFFER_SIZE - availableRead s

/-- States reachable from the fresh pipe buffer by `write_byte` performed
only when `available_write() > 0` and `read_byte` performed only when
`available_read() > 0`.  The list `q` is the queue of bytes written but not
yet read, in write order. -/
inductive PipeReach : PipeRingBuffer → List Nat → Prop where
  | init : PipeReach pipeNew []
  | write {s q b} : PipeReach s q → 0 < availableWrite s →
      PipeReach (writeByte s b) (q ++ [b])
  | read {s q} : PipeReach s q → 0 < availableRead s →
      PipeReach (readByte s).1 (q.drop 1)

/-- The concrete invariant tying a reachable buffer state to its abstract
byte queue. -/
def PipeInv (s : PipeRingBuffer) (q : List Nat) : Prop :=
  s.head < 32 ∧ s.tail < 32 ∧ q.length ≤ 32 ∧
  s.tail = (s.head + q.length) % 32 ∧
  (s.status = RingBufferStatus.Empty ↔ q.length = 0) ∧
  (s.status = RingBufferStatus.Full ↔ q.length = 32) ∧
  (∀ i, i < q.length → s.arr ((s.head + i) % 32) = q.getD i 0)

lemma pipe_availableRead_eq {s : PipeRingBuffer} {q : List Nat}
    (h : PipeInv s q) : availableRead s = q.length := by
  obtain ⟨hh, ht, hlen, htail, hemp, hfull, harr⟩ := h
  rw [availableRead]
  by_cases hst : s.status = RingBufferStatus.Empty
  · rw [if_pos hst]
    exact (hemp.mp hst).symm
  · rw [if_neg hst]
    have hq0 : q.length ≠ 0 := fun hc => hst (hemp.mpr hc)
    rw [RING_BUFFER_SIZE]
    split_ifs <;> omega

lemma pipe_inv_holds {s : PipeRingBuffer} {q : List Nat}
    (h : PipeReach s q) : PipeInv s q := by
  induction h with
  | init =>
    refine ⟨by simp [pipeNew], by simp [pipeNew], by simp, by simp [pipeNew],
      by simp [pipeNew], by simp [pipeNew], ?_⟩
    intro i hi
    simp at hi
  | @write s q b hreach hav ih =>
    obtain ⟨hh, ht, hlen, htail, hemp, hfull, harr⟩ := ih
    have hread : availableRead s = q.length :=
      pipe_availableRead_eq ⟨hh, ht, hlen, htail, hemp, hfull, harr⟩
    have hlen32 : q.length < 32 := by
      rw [availableWrite, RING_BUFFER_SIZE] at hav
      by_cases hst : s.status = RingBufferStatus.Full
      · rw [if_pos hst] at hav
        omega
      · have hne : q.length ≠ 32 := fun hc => hst (hfull.mpr hc)
        omega
    obtain ⟨arr, head, tail, status⟩ := s
    dsimp only at hh ht htail hemp hfull harr
    rw [writeByte]
    dsimp only [RING_BUFFER_SIZE]
    by_cases hfl : (tail + 1) % 32 = head
    · rw [if_pos hfl]
      have hlen1 : q.length + 1 = 32 := by omega
      refine ⟨hh, by dsimp only; omega, ?_, ?_, ?_, ?_, ?_⟩
      · simp only [List.length_append, List.length_singleton]
        omega
      · dsimp only
        simp only [List.length_append, List.length_singleton]
        omega
      · dsimp only
        constructor
        · intro hc
          exact absurd hc (by decide)
        · intro hc
          simp only [List.length_append, List.length_singleton] at hc
          omega
      · dsimp only
        simp only [List.length_append, List.length_singleton]
        constructor
        · intro
          omega
        · intro
          trivial
      · dsimp only
        intro i hi
        simp only [List.length_append, List.length_singleton] at hi
        by_cases hiq : i < q.length
        · have hne : (head + i) % 32 ≠ tail := by omega
          rw [if_neg hne, List.getD_append _ _ _ _ hiq]
          exact harr i hiq
        · have hie : i = q.length := by omega
          subst hie
          have heq : (head + q.length) % 32 = tail := htail.symm
          rw [if_pos heq, List.getD_append_right _ _ _ _ (le_refl _)]
          simp
    · rw [if_neg hfl]
      refine ⟨hh, by dsimp only; omega, ?_, ?_, ?_, ?_, ?_⟩
      · simp only [List.length_append, List.length_singleton]
        omega
      · dsimp only
        simp only [List.length_append, List.length_singleton]
        omega
      · dsimp only
        constructor
        · intro hc
          exact absurd hc (by decide)
        · intro hc
          simp only [List.length_append, List.length_singleton] at hc
          omega
      · dsimp only
        constructor
        · intro hc
          exact absurd hc (by decide)
        · intro hc
          simp only [List.length_append, List.length_singleton] at hc
          omega
      · dsimp only
        intro i hi
        simp only [List.length_append, List.length_singleton] at hi
        by_cases hiq : i < q.length
        · have hne : (head + i) % 32 ≠ tail := by omega
          rw [if_neg hne, List.getD_append _ _ _ _ hiq]
          exact harr i hiq
        · have hie : i = q.length := by omega
          subst hie
          have heq : (head + q.length) % 32 = tail := htail.symm
          rw [if_pos heq, List.getD_append_right _ _ _ _ (le_refl _)]
          simp
  | @read s q hreach hav ih =>
    obtain ⟨hh, ht, hlen, htail, hemp, hfull, harr⟩ := ih
    have hread : availableRead s = q.length :=
      pipe_availableRead_eq ⟨hh, ht, hlen, htail, hemp, hfull, harr⟩
    have hq0 : 0 < q.length := by omega
    obtain ⟨arr, head, tail, status⟩ := s
    dsimp only at hh ht htail hemp hfull harr
    rw [readByte]
    dsimp only [RING_BUFFER_SIZE]
    by_cases hem : (head + 1) % 32 = tail
    · rw [if_pos hem]
      have hlen1 : q.length = 1 := by omega
      refine ⟨by dsimp only; omega, ht, ?_, ?_, ?_, ?_, ?_⟩
      · simp only [List.length_drop]
        omega
      · dsimp only
        simp only [List.length_drop]
        omega
      · dsimp only
        simp only [List.length_drop]
        constructor
        · intro
          omega
        · intro
          trivial
      · dsimp only
        simp only [List.length_drop]
        constructor
        · intro hc
          exact absurd hc (by decide)
        · intro hc
          omega
      · dsimp only
        intro i hi
        simp only [List.length_drop] at hi
        omega
    · rw [if_neg hem]
      refine ⟨by dsimp only; omega, ht, ?_, ?_, ?_, ?_, ?_⟩
      · simp only [List.length_drop]
        omega
      · dsimp only
        simp only [List.length_drop]
        omega
      · dsimp only
        simp only [List.length_drop]
        constructor
        · intro hc
          exact absurd hc (by decide)
        · intro hc
          omega
      · dsimp only
        simp only [List.length_drop]
        constructor
        · intro hc
          exact absurd hc (by decide)
        · intro hc
          omega
      · dsimp only
        intro i hi
        simp only [List.length_drop] at hi
        have hrot : ((head + 1) % 32 + i) % 32 = (head + (i + 1)) % 32 := by
          rw [Nat.mod_add_mod]
          congr 1
          omega
        rw [hrot]
        have h1i : 1 + i = i + 1 := by omega
        have hget : (q.drop 1).getD i 0 = q.getD (i + 1) 0 := by
          rw [List.getD_eq_getElem?_getD, List.getD_eq_getElem?_getD, List.getElem?_drop, h1i]
        rw [hget]
        exact harr (i + 1) (by omega)

/-- C10: for every buffer state reachable from the fresh pipe buffer by
guarded `write_byte`/`read_byte` calls, with `q` the bytes written but not
yet read in write order: `available_read + available_write = 32`,
`available_read` equals the number of outstanding bytes, and `read_byte`
returns the oldest outstanding byte (FIFO order). -/
theorem C10_pipe_ring_buffer (s : PipeRingBuffer) (q : List Nat)
    (h : PipeReach s q) :
    availableRead s + availableWrite s = 32 ∧
    availableRead s = q.length ∧
    (0 < q.length → (readByte s).2 = q.getD 0 0) := by
  have hinv := pipe_inv_holds h
  have hread : availableRead s = q.length := pipe_availableRead_eq hinv
  obtain ⟨hh, ht, hlen, htail, hemp, hfull, harr⟩ := hinv
  refine ⟨?_, hread, ?_⟩
  · rw [availableWrite, RING_BUFFER_SIZE]
    by_cases hst : s.status = RingBufferStatus.Full
    · rw [if_pos hst]
      have := hfull.mp hst
      omega
    · rw [if_neg hst]
      have hne : q.length ≠ 32 := fun hc => hst (hfull.mpr hc)
      omega
  · intro hq0
    have harr0 := harr 0 hq0
    rw [Nat.add_zero] at harr0
    have hhead : s.head % 32 = s.head := Nat.mod_eq_of_lt hh
    rw [hhead] at harr0
    rw [readByte]
    by_cases hem : (s.head + 1) % RING_BUFFER_SIZE = s.tail
    · rw [if_pos hem]
      exact harr0
    · rw [if_neg hem]
      exact harr0

/-- Witness for C10: after writing bytes 10 then 20, two bytes are
outstanding, 30 slots are free, and the next read returns 10. -/
theorem C10_pipe_ring_buffer_witness :
    availableRead (writeByte (writeByte pipeNew 10) 20) +
      availableWrite (writeByte (writeByte pipeNew 10) 20) = 32 ∧
    availableRead (writeByte (writeByte pipeNew 10) 20) = 2 ∧
    (readByte (writeByte (writeByte pipeNew 10) 20)).2 = 10 := by
  have hreach : PipeReach (writeByte (writeByte pipeNew 10) 20) [10, 20] := by
    have h0 : PipeReach pipeNew [] := PipeReach.init
    have h1 : PipeReach (writeByte pipeNew 10) [10] := by
      have := PipeReach.write (b := 10) h0 (by decide)
      simpa using this
    have h2 := PipeReach.write (b := 20) h1 (by decide)
    simpa using h2
  obtain ⟨ha, hb, hc⟩ := C10_pipe_ring_buffer _ _ hreach
  exact ⟨ha, by rw [hb]; rfl, by rw [hc (by simp)]; rfl⟩

/-! ## os: signal checking (src/os/src/task/mod.rs, src/os/src/task/signal.rs) -/

/-- `MAX_SIG` from signal.rs. -/
def MAX_SIG : Nat := 31

/-- Signal bit indices from signal.rs (`SIGDEF = 1 = 1 << 0`). -/
def SIGDEF : Nat := 0

/-- `SIGKILL = 1 << 9`. -/
def SIGKILL : Nat := 9

/-- `SIGCONT = 1 << 18`. -/
def SIGCONT : Nat := 18

/-- `SIGSTOP = 1 << 19`. -/
def SIGSTOP : Nat := 19

/-- The parts of `ProcessControlBlockInner` that signal checking touches.
Bitsets (`signals`, `signal_mask`, the per-action masks) are `u32` values
modelled as `Nat` bit sets; `handling_sig : isize` is `-1` or the signal
being handled; `actions_handler`/`actions_mask` are the `SignalActions`
table's `handler` and `mask` columns; `trap_sepc`/`trap_a0` are the fields of
the current trap context that `call_user_signal_handler` writes. -/
structure SignalProc where
  signals : Nat
  signal_mask : Nat
  handling_sig : Int
  actions_handler : Nat → Nat
  actions_mask : Nat → Nat
  frozen : Bool
  killed : Bool
  trap_sepc : Nat
  trap_a0 : Nat
  trap_ctx_backup : Option (Nat × Nat)

/-- `call_kernel_signal_handler(signal)` from task/mod.rs: `SIGSTOP` sets
`frozen` and removes `SIGSTOP` from the pending set; `SIGCONT` (when
pending) removes it and clears `frozen`; every other signal sets `killed`
(and leaves the pending set unchanged). -/
def callKernelSignalHandler (sig : Nat) (p : SignalProc) : SignalProc :=
  if sig = SIGSTOP then
    { p with frozen := true, signals := p.signals ^^^ (1 <<< SIGSTOP) }
  else if sig = SIGCONT then
    if p.signals.testBit SIGCONT then
      { p with signals := p.signals ^^^ (1 <<< SIGCONT), frozen := false }
    else p
  else { p with killed := true }

/-- `call_user_signal_handler(sig, signal)` from task/mod.rs: with a
registered handler it marks the signal as being handled, removes it from the
pending set, backs up the trap context and redirects `sepc`/`a0`; with no
handler it only logs. -/
def callUserSignalHandler (sig : Nat) (p : SignalProc) : SignalProc :=
  let handler := p.actions_handler sig
  if handler ≠ 0 then
    { p with
      handling_sig := (sig : Int),
      signals := p.signals ^^^ (1 <<< sig),
      trap_ctx_backup := some (p.trap_sepc, p.trap_a0),
      trap_sepc := handler,
      trap_a0 := sig }
  else p

/-- The per-signal guard in `check_pending_signals`: the signal is pending,
not globally masked, and (when another signal is being handled) not masked by
that signal's action mask. -/
def sigApplicable (p : SignalProc) (sig : Nat) : Bool :=
  p.signals.testBit sig && !p.signal_mask.testBit sig &&
    (p.handling_sig == -1 ||
      !(p.actions_mask p.handling_sig.toNat).testBit sig)

/-- The four signals handled by the kernel in `check_pending_signals`. -/
def isKernelSignal (sig : Nat) : Bool :=
  sig == SIGKILL || sig == SIGSTOP || sig == SIGCONT || sig == SIGDEF

/-- The `for sig in 0..(MAX_SIG + 1)` loop of `check_pending_signals` over
the remaining signal numbers: an applicable kernel signal is handled in the
kernel and scanning continues; an applicable other signal goes to
`call_user_signal_handler` and the loop returns. -/
def checkSignalsList : List Nat → SignalProc → SignalProc
  | [], p => p
  | sig :: rest, p =>
    if sigApplicable p sig then
      if isKernelSignal sig then checkSignalsList rest (callKernelSignalHandler sig p)
      else callUserSignalHandler sig p
    else checkSignalsList rest p

/-- `check_pending_signals` from task/mod.rs. -/
def checkPendingSignals (p : SignalProc) : SignalProc :=
  checkSignalsList (List.range (MAX_SIG + 1)) p

lemma sigApplicable_congr {p q : SignalProc} (s : Nat)
    (h1 : q.signal_mask = p.signal_mask) (h2 : q.handling_sig = p.handling_sig)
    (h3 : q.actions_mask = p.actions_mask)
    (h4 : q.signals.testBit s = p.signals.testBit s) :
    sigApplicable q s = sigApplicable p s := by
  rw [sigApplicable, sigApplicable, h1, h2, h3, h4]

lemma sigApplicable_pending {p : SignalProc} {s : Nat}
    (h : sigApplicable p s = true) : p.signals.testBit s = true := by
  rw [sigApplicable] at h
  simp only [Bool.and_eq_true] at h
  exact h.1.1

/-- Effects of `call_kernel_signal_handler` on the fields that the scan's
guard reads, assuming the handled signal is pending. -/
lemma kernelHandler_preserves (sig : Nat) (p : SignalProc)
    (hpend : p.signals.testBit sig = true) :
    (callKernelSignalHandler sig p).signal_mask = p.signal_mask ∧
    (callKernelSignalHandler sig p).handling_sig = p.handling_sig ∧
    (callKernelSignalHandler sig p).actions_mask = p.actions_mask ∧
    (callKernelSignalHandler sig p).actions_handler = p.actions_handler ∧
    (∀ b, b ≠ sig →
      (callKernelSignalHandler sig p).signals.testBit b = p.signals.testBit b) ∧
    (∀ b, (callKernelSignalHandler sig p).signals.testBit b = true →
      p.signals.testBit b = true) ∧
    (p.killed = true → (callKernelSignalHandler sig p).killed = true) := by
  rw [callKernelSignalHandler]
  by_cases h19 : sig = SIGSTOP
  · subst h19
    rw [if_pos rfl]
    refine ⟨rfl, rfl, rfl, rfl, ?_, ?_, fun h => h⟩
    · intro b hb
      rw [Nat.testBit_xor, Nat.one_shiftLeft, Nat.testBit_two_pow]
      simp [Ne.symm hb]
    · intro b hb
      rw [Nat.testBit_xor, Nat.one_shiftLeft, Nat.testBit_two_pow] at hb
      by_cases hbs : b = SIGSTOP
      · subst hbs
        exact hpend
      · simpa [Ne.symm hbs] using hb
  · rw [if_neg h19]
    by_cases h18 : sig = SIGCONT
    · subst h18
      rw [if_pos rfl, if_pos hpend]
      refine ⟨rfl, rfl, rfl, rfl, ?_, ?_, fun h => h⟩
      · intro b hb
        rw [Nat.testBit_xor, Nat.one_shiftLeft, Nat.testBit_two_pow]
        simp [Ne.symm hb]
      · intro b hb
        rw [Nat.testBit_xor, Nat.one_shiftLeft, Nat.testBit_two_pow] at hb
        by_cases hbs : b = SIGCONT
        · subst hbs
          exact hpend
        · simpa [Ne.symm hbs] using hb
    · rw [if_neg h18]
      exact ⟨rfl, rfl, rfl, rfl, fun b _ => rfl, fun b hb => hb, fun _ => rfl⟩

/-- Scanning a prefix in which every applicable signal is kernel-handled
reaches the rest of the scan in a state that keeps the guard-relevant fields
and all signal bits outside the prefix. -/
lemma checkSignals_prefix (l : List Nat) (rest : List Nat) (p : SignalProc)
    (h : ∀ t ∈ l, isKernelSignal t = false → sigApplicable p t = false) :
    ∃ q, checkSignalsList (l ++ rest) p = checkSignalsList rest q ∧
      q.signal_mask = p.signal_mask ∧ q.handling_sig = p.handling_sig ∧
      q.actions_mask = p.actions_mask ∧ q.actions_handler = p.actions_handler ∧
      (∀ b, (∀ t ∈ l, t ≠ b) → q.signals.testBit b = p.signals.testBit b) ∧
      (∀ b, q.signals.testBit b = true → p.signals.testBit b = true) ∧
      (p.killed = true → q.killed = true) := by
  induction l generalizing p with
  | nil =>
    exact ⟨p, rfl, rfl, rfl, rfl, rfl, fun b _ => rfl, fun b hb => hb, fun hk => hk⟩
  | cons t l' ih =>
    rw [List.cons_append, checkSignalsList]
    by_cases happ : sigApplicable p t = true
    · have hker : isKernelSignal t = true := by
        by_contra hc
        have := h t (by simp) (by simpa using hc)
        rw [this] at happ
        exact absurd happ (by simp)
      rw [if_pos happ, if_pos hker]
      have hpend := sigApplicable_pending happ
      obtain ⟨k1, k2, k3, k4, k5, k6, k7⟩ := kernelHandler_preserves t p hpend
      have htrans : ∀ u ∈ l', isKernelSignal u = false →
          sigApplicable (callKernelSignalHandler t p) u = false := by
        intro u hu hku
        by_contra hc
        have hc' : sigApplicable (callKernelSignalHandler t p) u = true := by
          simpa using hc
        have hpu : sigApplicable p u = true := by
          rw [sigApplicable] at hc' ⊢
          rw [k1, k2, k3] at hc'
          simp only [Bool.and_eq_true] at hc' ⊢
          exact ⟨⟨k6 u (by
            have := hc'.1.1
            exact this), hc'.1.2⟩, hc'.2⟩
        have := h u (by simp [hu]) hku
        rw [this] at hpu
        exact absurd hpu (by simp)
      obtain ⟨q, hq, q1, q2, q3, q4, q5, q6, q7⟩ := ih (callKernelSignalHandler t p) htrans
      refine ⟨q, hq, q1.trans k1, q2.trans k2, q3.trans k3, q4.trans k4, ?_, ?_, ?_⟩
      · intro b hb
        rw [q5 b (fun u hu => hb u (by simp [hu])), k5 b (Ne.symm (hb t (by simp)))]
      · intro b hb
        exact k6 b (q6 b hb)
      · intro hk
        exact q7 (k7 hk)
    · rw [if_neg happ]
      obtain ⟨q, hq, q1, q2, q3, q4, q5, q6, q7⟩ :=
        ih p (fun u hu hku => h u (by simp [hu]) hku)
      exact ⟨q, hq, q1, q2, q3, q4,
        fun b hb => q5 b (fun u hu => hb u (by simp [hu])), q6, q7⟩

/-- `checkSignalsList` never clears `killed`. -/
lemma checkSignals_killed_mono (l : List Nat) (p : SignalProc)
    (h : p.killed = true) : (checkSignalsList l p).killed = true := by
  induction l generalizing p with
  | nil => exact h
  | cons t l' ih =>
    rw [checkSignalsList]
    by_cases happ : sigApplicable p t = true
    · rw [if_pos happ]
      by_cases hker : isKernelSignal t = true
      · rw [if_pos hker]
        apply ih
        rw [callKernelSignalHandler]
        split_ifs <;> simp [h]
      · rw [if_neg hker]
        rw [callUserSignalHandler]
        split_ifs <;> simp [h]
    · rw [if_neg happ]
      exact ih p h

/-- Signal bits not named by the remaining scan list are never changed. -/
lemma checkSignals_bits_outside (l : List Nat) (p : SignalProc) (b : Nat)
    (h : ∀ t ∈ l, t ≠ b) :
    (checkSignalsList l p).signals.testBit b = p.signals.testBit b := by
  induction l generalizing p with
  | nil => rfl
  | cons t l' ih =>
    have htb : t ≠ b := h t (by simp)
    have hrest : ∀ u ∈ l', u ≠ b := fun u hu => h u (by simp [hu])
    rw [checkSignalsList]
    by_cases happ : sigApplicable p t = true
    · rw [if_pos happ]
      by_cases hker : isKernelSignal t = true
      · rw [if_pos hker, ih _ hrest]
        have hpend := sigApplicable_pending happ
        exact (kernelHandler_preserves t p hpend).2.2.2.2.1 b (Ne.symm htb)
      · rw [if_neg hker, callUserSignalHandler]
        split_ifs with hh
        · dsimp only
          rw [Nat.testBit_xor, Nat.one_shiftLeft, Nat.testBit_two_pow]
          simp [htb]
        · rfl
    · rw [if_neg happ]
      exact ih p hrest

/-- `frozen` is unchanged by a scan in which no kernel signal is
applicable. -/
lemma checkSignals_frozen_pres (l : List Nat) (p : SignalProc)
    (h : ∀ t ∈ l, isKernelSignal t = true → sigApplicable p t = false) :
    (checkSignalsList l p).frozen = p.frozen := by
  induction l generalizing p with
  | nil => rfl
  | cons t l' ih =>
    rw [checkSignalsList]
    by_cases happ : sigApplicable p t = true
    · rw [if_pos happ]
      by_cases hker : isKernelSignal t = true
      · rw [h t (by simp) hker] at happ
        exact absurd happ (by simp)
      · rw [if_neg hker, callUserSignalHandler]
        split_ifs <;> rfl
    · rw [if_neg happ]
      exact ih p (fun u hu => h u (by simp [hu]))

lemma sigApplicable_false_of_not_pending {p : SignalProc} {s : Nat}
    (h : p.signals.testBit s = false) : sigApplicable p s = false := by
  rw [sigApplicable, h]
  simp

lemma mem_signal_suffix_ge {s t : Nat}
    (h : t ∈ (List.range (31 - s)).map (fun i => s + 1 + i)) : s + 1 ≤ t := by
  simp only [List.mem_map, List.mem_range] at h
  obtain ⟨i, hi, rfl⟩ := h
  omega

lemma isKernelSignal_false_of_ge20 {t : Nat} (h : 20 ≤ t) :
    isKernelSignal t = false := by
  simp only [isKernelSignal, SIGKILL, SIGSTOP, SIGCONT, SIGDEF,
    Bool.or_eq_false_iff, beq_eq_false_iff_ne, ne_eq]
  omega

/-- C1 counterexample: a process whose only pending signal is `SIGKILL`
(unmasked, no signal being handled) — the claim's precondition holds — but
after `check_pending_signals` runs, `killed` is set while the `SIGKILL`
pending bit is still set: the kernel handler does not clear the pending bit
of `SIGKILL`/`SIGDEF`. -/
theorem C1_kernel_signal_counterexample :
    sigApplicable
      { signals := 1 <<< 9, signal_mask := 0, handling_sig := -1,
        actions_handler := fun _ => 0, actions_mask := fun _ => 0,
        frozen := false, killed := false, trap_sepc := 0, trap_a0 := 0,
        trap_ctx_backup := none } SIGKILL = true ∧
    (checkPendingSignals
      { signals := 1 <<< 9, signal_mask := 0, handling_sig := -1,
        actions_handler := fun _ => 0, actions_mask := fun _ => 0,
        frozen := false, killed := false, trap_sepc := 0, trap_a0 := 0,
        trap_ctx_backup := none }).killed = true ∧
    (checkPendingSignals
      { signals := 1 <<< 9, signal_mask := 0, handling_sig := -1,
        actions_handler := fun _ => 0, actions_mask := fun _ => 0,
        frozen := false, killed := false, trap_sepc := 0, trap_a0 := 0,
        trap_ctx_backup := none }).signals.testBit SIGKILL = true := by
  refine ⟨by decide, by decide, by decide⟩

/-- C1 (amended): let `s ∈ {SIGDEF, SIGKILL, SIGCONT, SIGSTOP}` be pending,
not globally masked and not blocked by the currently-handling signal's mask,
and let no user-handled signal with a smaller number be deliverable (such a
signal would end the scan early).  Then `check_pending_signals` handles `s`
in the kernel: `SIGSTOP` sets `frozen` and clears its pending bit; `SIGCONT`
(when `SIGSTOP` is not also deliverable) clears `frozen` and its own pending
bit; `SIGKILL`/`SIGDEF` set `killed` but leave the pending bit set. -/
theorem C1_check_pending_signals_amended (p : SignalProc) (s : Nat)
    (hs : s = SIGDEF ∨ s = SIGKILL ∨ s = SIGCONT ∨ s = SIGSTOP)
    (happ : sigApplicable p s = true)
    (husr : ∀ t, t < s → isKernelSignal t = false → sigApplicable p t = false)
    (hstop : s = SIGCONT → p.signals.testBit SIGSTOP = false) :
    (s = SIGSTOP → (checkPendingSignals p).frozen = true ∧
      (checkPendingSignals p).signals.testBit SIGSTOP = false) ∧
    (s = SIGCONT → (checkPendingSignals p).frozen = false ∧
      (checkPendingSignals p).signals.testBit SIGCONT = false) ∧
    ((s = SIGKILL ∨ s = SIGDEF) → (checkPendingSignals p).killed = true ∧
      (checkPendingSignals p).signals.testBit s = true) := by
  have hdecomp : List.range (MAX_SIG + 1) =
      List.range s ++ s :: (List.range (31 - s)).map (fun i => s + 1 + i) := by
    rcases hs with rfl | rfl | rfl | rfl <;> decide
  have hpre : ∀ t ∈ List.range s, isKernelSignal t = false → sigApplicable p t = false := by
    intro t ht
    exact husr t (List.mem_range.mp ht)
  obtain ⟨q, hq, q1, q2, q3, q4, q5, q6, q7⟩ :=
    checkSignals_prefix (List.range s) (s :: (List.range (31 - s)).map (fun i => s + 1 + i)) p hpre
  have hbit_s : q.signals.testBit s = p.signals.testBit s :=
    q5 s (fun t ht => by have := List.mem_range.mp ht; omega)
  have happq : sigApplicable q s = true := by
    rw [sigApplicable_congr s q1 q2 q3 hbit_s]
    exact happ
  have hker : isKernelSignal s = true := by
    rcases hs with rfl | rfl | rfl | rfl <;> decide
  have hrun : checkPendingSignals p =
      checkSignalsList ((List.range (31 - s)).map (fun i => s + 1 + i))
        (callKernelSignalHandler s q) := by
    rw [checkPendingSignals, hdecomp, hq, checkSignalsList, if_pos happq, if_pos hker]
  have hpendq : q.signals.testBit s = true := sigApplicable_pending happq
  refine ⟨?_, ?_, ?_⟩
  · rintro rfl
    have hq2 : callKernelSignalHandler SIGSTOP q =
        { q with frozen := true, signals := q.signals ^^^ (1 <<< SIGSTOP) } := by
      rw [callKernelSignalHandler, if_pos rfl]
    rw [hrun, hq2]
    set q2 : SignalProc := { q with frozen := true, signals := q.signals ^^^ (1 <<< SIGSTOP) }
    have hnok : ∀ t ∈ (List.range (31 - SIGSTOP)).map (fun i => SIGSTOP + 1 + i),
        isKernelSignal t = true → sigApplicable q2 t = false := by
      intro t ht hk
      have hge := mem_signal_suffix_ge ht
      rw [isKernelSignal_false_of_ge20 (by simp only [SIGSTOP] at hge; omega)] at hk
      exact absurd hk (by simp)
    have hne : ∀ t ∈ (List.range (31 - SIGSTOP)).map (fun i => SIGSTOP + 1 + i),
        t ≠ SIGSTOP := by
      intro t ht
      have := mem_signal_suffix_ge ht
      omega
    rw [checkSignals_frozen_pres _ _ hnok, checkSignals_bits_outside _ _ _ hne]
    refine ⟨rfl, ?_⟩
    show (q.signals ^^^ (1 <<< SIGSTOP)).testBit SIGSTOP = false
    rw [Nat.testBit_xor, Nat.one_shiftLeft, Nat.testBit_two_pow, hpendq]
    simp
  · rintro rfl
    have hstop' : q.signals.testBit SIGSTOP = false := by
      rw [q5 SIGSTOP (fun t ht => by
        have := List.mem_range.mp ht
        simp only [SIGCONT] at this
        simp only [SIGSTOP]
        omega)]
      exact hstop rfl
    have hq2 : callKernelSignalHandler SIGCONT q =
        { q with signals := q.signals ^^^ (1 <<< SIGCONT), frozen := false } := by
      have hns : ¬(SIGCONT = SIGSTOP) := by decide
      rw [callKernelSignalHandler, if_neg hns, if_pos rfl, if_pos hpendq]
    rw [hrun, hq2]
    set q2 : SignalProc := { q with signals := q.signals ^^^ (1 <<< SIGCONT), frozen := false }
    have hq2stop : q2.signals.testBit SIGSTOP = false := by
      show (q.signals ^^^ (1 <<< SIGCONT)).testBit SIGSTOP = false
      rw [Nat.testBit_xor, Nat.one_shiftLeft, Nat.testBit_two_pow, hstop']
      simp [SIGCONT, SIGSTOP]
    have hnok : ∀ t ∈ (List.range (31 - SIGCONT)).map (fun i => SIGCONT + 1 + i),
        isKernelSignal t = true → sigApplicable q2 t = false := by
      intro t ht hk
      have hge := mem_signal_suffix_ge ht
      by_cases ht19 : t = SIGSTOP
      · subst ht19
        exact sigApplicable_false_of_not_pending hq2stop
      · have h20 : 20 ≤ t := by
          simp only [SIGCONT] at hge
          simp only [SIGSTOP] at ht19
          omega
        rw [isKernelSignal_false_of_ge20 h20] at hk
        exact absurd hk (by simp)
    have hne : ∀ t ∈ (List.range (31 - SIGCONT)).map (fun i => SIGCONT + 1 + i),
        t ≠ SIGCONT := by
      intro t ht
      have := mem_signal_suffix_ge ht
      omega
    rw [checkSignals_frozen_pres _ _ hnok, checkSignals_bits_outside _ _ _ hne]
    refine ⟨rfl, ?_⟩
    show (q.signals ^^^ (1 <<< SIGCONT)).testBit SIGCONT = false
    rw [Nat.testBit_xor, Nat.one_shiftLeft, Nat.testBit_two_pow, hpendq]
    simp
  · intro hsk
    have hq2 : callKernelSignalHandler s q = { q with killed := true } := by
      rcases hsk with rfl | rfl
      · have h1 : ¬(SIGKILL = SIGSTOP) := by decide
        have h2 : ¬(SIGKILL = SIGCONT) := by decide
        rw [callKernelSignalHandler, if_neg h1, if_neg h2]
      · have h1 : ¬(SIGDEF = SIGSTOP) := by decide
        have h2 : ¬(SIGDEF = SIGCONT) := by decide
        rw [callKernelSignalHandler, if_neg h1, if_neg h2]
    rw [hrun, hq2]
    have hne : ∀ t ∈ (List.range (31 - s)).map (fun i => s + 1 + i), t ≠ s := by
      intro t ht
      have := mem_signal_suffix_ge ht
      omega
    refine ⟨checkSignals_killed_mono _ _ rfl, ?_⟩
    rw [checkSignals_bits_outside _ _ _ hne]
    exact hpendq

/-- Witness for the amended C1 at a concrete process with only `SIGSTOP`
pending. -/
theorem C1_check_pending_signals_amended_witness :
    (checkPendingSignals
      { signals := 1 <<< 19, signal_mask := 0, handling_sig := -1,
        actions_handler := fun _ => 0, actions_mask := fun _ => 0,
        frozen := false, killed := false, trap_sepc := 0, trap_a0 := 0,
        trap_ctx_backup := none }).frozen = true ∧
    (checkPendingSignals
      { signals := 1 <<< 19, signal_mask := 0, handling_sig := -1,
        actions_handler := fun _ => 0, actions_mask := fun _ => 0,
        frozen := false, killed := false, trap_sepc := 0, trap_a0 := 0,
        trap_ctx_backup := none }).signals.testBit SIGSTOP = false :=
  (C1_check_pending_signals_amended
    { signals := 1 <<< 19, signal_mask := 0, handling_sig := -1,
      actions_handler := fun _ => 0, actions_mask := fun _ => 0,
      frozen := false, killed := false, trap_sepc := 0, trap_a0 := 0,
      trap_ctx_backup := none } SIGSTOP
    (Or.inr (Or.inr (Or.inr rfl)))
    (by decide)
    (by decide)
    (by intro h; exact absurd h (by decide))).1 rfl

/-! ## easy-fs: `DiskInode::read_at` / `write_at` (src/easy-fs/src/layout.rs)

The disk (as seen through the block cache) is a map `block id → byte offset
→ byte`.  `bid` is `self.get_block_id`: the resolved data-block id of each
file-internal block index.  `read_at`/`write_at` only call `get_block_id`
and copy byte ranges through the cache, so they are embedded relative to
`bid`; writes staying out of the inode's index blocks (true for properly
allocated data blocks) keep `bid` fixed across the call. -/

/-- The `loop` of `DiskInode::write_at`: one iteration copies the slice of
`buf` at `ws ..` into bytes `start%512 .. start%512+block_write_size` of the
data block for block index `start / 512`, then advances to the next block
boundary until `end` is reached. -/
def writeLoop (bid : Nat → Nat) (buf : List Nat) (disk : Nat → Nat → Nat)
    (start endp ws : Nat) : (Nat → Nat → Nat) × Nat :=
  let end_current_block := min ((start / BLOCK_SZ + 1) * BLOCK_SZ) endp
  let block_write_size := end_current_block - start
  let disk' := fun b i =>
    if b = bid (start / BLOCK_SZ) ∧ start % BLOCK_SZ ≤ i ∧
        i < start % BLOCK_SZ + block_write_size
    then buf.getD (ws + (i - start % BLOCK_SZ)) 0 else disk b i
  if end_current_block = endp then (disk', ws + block_write_size)
  else writeLoop bid buf disk' end_current_block endp (ws + block_write_size)
termination_by endp - start
decreasing_by
  have hm : (start / BLOCK_SZ + 1) * BLOCK_SZ = (start / 512 + 1) * 512 := rfl
  have hecb : end_current_block = min ((start / 512 + 1) * 512) endp := by rw [← hm]
  omega

/-- The `loop` of `DiskInode::read_at`: one iteration appends bytes
`start%512 .. start%512+block_read_size` of the data block for block index
`start / 512` to the output. -/
def readLoop (bid : Nat → Nat) (disk : Nat → Nat → Nat)
    (start endp : Nat) (acc : List Nat) : List Nat :=
  let end_current_block := min ((start / BLOCK_SZ + 1) * BLOCK_SZ) endp
  let block_read_size := end_current_block - start
  let chunk := (List.range block_read_size).map
    (fun k => disk (bid (start / BLOCK_SZ)) (start % BLOCK_SZ + k))
  if end_current_block = endp then acc ++ chunk
  else readLoop bid disk end_current_block endp (acc ++ chunk)
termination_by endp - start
decreasing_by
  have hm : (start / BLOCK_SZ + 1) * BLOCK_SZ = (start / 512 + 1) * 512 := rfl
  have hecb : end_current_block = min ((start / 512 + 1) * 512) endp := by rw [← hm]
  omega

/-- `DiskInode::write_at(offset, buf)`: clips to `min(offset+len, size)`,
panics (`none`) when `offset` exceeds the clipped end (`assert!(start <=
end)`), and returns the updated disk and the written length. -/
def write_at (bid : Nat → Nat) (disk : Nat → Nat → Nat) (size offset : Nat)
    (buf : List Nat) : Option ((Nat → Nat → Nat) × Nat) :=
  let endp := min (offset + buf.length) size
  if offset ≤ endp then some (writeLoop bid buf disk offset endp 0) else none

/-- `DiskInode::read_at(offset, buf)` with `buf.len() = len`: clips to
`min(offset+len, size)`, returns no bytes when `offset` is at or past the
end, and otherwise the bytes of the clipped range. -/
def read_at (bid : Nat → Nat) (disk : Nat → Nat → Nat) (size offset len : Nat) :
    List Nat :=
  let endp := min (offset + len) size
  if endp ≤ offset then [] else readLoop bid disk offset endp []

lemma writeLoop_ret (bid : Nat → Nat) (buf : List Nat) :
    ∀ n disk start endp ws, endp - start = n → start ≤ endp →
      (writeLoop bid buf disk start endp ws).2 = ws + (endp - start) := by
  intro n
  induction n using Nat.strong_induction_on with
  | _ n ih =>
    intro disk start endp ws hn hle
    rw [writeLoop.eq_def]
    simp only [BLOCK_SZ]
    by_cases hecb : min ((start / 512 + 1) * 512) endp = endp
    · rw [if_pos hecb]
      simp only
      omega
    · rw [if_neg hecb]
      have h1 : start < min ((start / 512 + 1) * 512) endp := by omega
      have h2 : min ((start / 512 + 1) * 512) endp ≤ endp := by omega
      rw [ih (endp - min ((start / 512 + 1) * 512) endp) (by omega) _ _ _ _ rfl h2]
      omega

lemma writeLoop_untouched (bid : Nat → Nat) (buf : List Nat) :
    ∀ n disk start endp ws b i, endp - start = n →
      (∀ sb, start / 512 ≤ sb → sb * 512 < endp → bid sb ≠ b) →
      (writeLoop bid buf disk start endp ws).1 b i = disk b i := by
  intro n
  induction n using Nat.strong_induction_on with
  | _ n ih =>
    intro disk start endp ws b i hn hb
    rw [writeLoop.eq_def]
    simp only [BLOCK_SZ]
    have hfirst : ∀ j,
        (if b = bid (start / 512) ∧ start % 512 ≤ j ∧
            j < start % 512 + (min ((start / 512 + 1) * 512) endp - start)
          then buf.getD (ws + (j - start % 512)) 0 else disk b j) = disk b j := by
      intro j
      by_cases hcase : b = bid (start / 512) ∧ start % 512 ≤ j ∧
          j < start % 512 + (min ((start / 512 + 1) * 512) endp - start)
      · exfalso
        have hlt : start < endp := by omega
        exact hb (start / 512) (le_refl _) (by omega) hcase.1.symm
      · rw [if_neg hcase]
    by_cases hecb : min ((start / 512 + 1) * 512) endp = endp
    · rw [if_pos hecb]
      exact hfirst i
    · rw [if_neg hecb]
      have h1 : start < min ((start / 512 + 1) * 512) endp := by omega
      rw [ih (endp - min ((start / 512 + 1) * 512) endp) (by omega) _ _ _ _ b i rfl
        (fun sb hsb1 hsb2 => hb sb (by omega) hsb2)]
      exact hfirst i

lemma writeLoop_written (bid : Nat → Nat) (buf : List Nat) :
    ∀ n disk start endp ws p, endp - start = n →
      start ≤ p → p < endp →
      (∀ i j, start / 512 ≤ i → i * 512 < endp → start / 512 ≤ j →
        j * 512 < endp → bid i = bid j → i = j) →
      (writeLoop bid buf disk start endp ws).1 (bid (p / 512)) (p % 512) =
        buf.getD (ws + (p - start)) 0 := by
  intro n
  induction n using Nat.strong_induction_on with
  | _ n ih =>
    intro disk start endp ws p hn hp1 hp2 hinj
    rw [writeLoop.eq_def]
    simp only [BLOCK_SZ]
    set ecb := min ((start / 512 + 1) * 512) endp with hecb_def
    have hecb1 : start < ecb := by omega
    have hecb2 : ecb ≤ endp := by omega
    by_cases hecb : ecb = endp
    · rw [if_pos hecb]
      simp only
      have hpb : p / 512 = start / 512 := by omega
      have hcond : bid (p / 512) = bid (start / 512) ∧ start % 512 ≤ p % 512 ∧
          p % 512 < start % 512 + (ecb - start) := by
        refine ⟨by rw [hpb], by omega, by omega⟩
      rw [if_pos hcond]
      congr 1
      omega
    · rw [if_neg hecb]
      by_cases hpe : p < ecb
      · have hpb : p / 512 = start / 512 := by omega
        rw [writeLoop_untouched bid buf (endp - ecb) _ ecb endp _ _ _ rfl ?side]
        case side =>
          intro sb hsb1 hsb2 hbe
          have hi : sb = p / 512 :=
            hinj sb (p / 512) (by omega) hsb2 (by omega) (by omega) hbe
          omega
        have hcond : bid (p / 512) = bid (start / 512) ∧ start % 512 ≤ p % 512 ∧
            p % 512 < start % 512 + (ecb - start) := by
          refine ⟨by rw [hpb], by omega, by omega⟩
        rw [if_pos hcond]
        congr 1
        omega
      · rw [ih (endp - ecb) (by omega) _ ecb endp _ p rfl (by omega) hp2
          (fun i j hi1 hi2 hj1 hj2 hbe =>
            hinj i j (by omega) hi2 (by omega) hj2 hbe)]
        congr 1
        omega

lemma readLoop_spec (bid : Nat → Nat) (disk : Nat → Nat → Nat) :
    ∀ n start endp acc, endp - start = n →
      readLoop bid disk start endp acc =
        acc ++ (List.range (endp - start)).map
          (fun k => disk (bid ((start + k) / 512)) ((start + k) % 512)) := by
  intro n
  induction n using Nat.strong_induction_on with
  | _ n ih =>
    intro start endp acc hn
    rw [readLoop.eq_def]
    simp only [BLOCK_SZ]
    set ecb := min ((start / 512 + 1) * 512) endp with hecb_def
    have hchunk : (List.range (ecb - start)).map
        (fun k => disk (bid (start / 512)) (start % 512 + k)) =
        (List.range (ecb - start)).map
          (fun k => disk (bid ((start + k) / 512)) ((start + k) % 512)) := by
      apply List.map_congr_left
      intro k hk
      rw [List.mem_range] at hk
      have h1 : (start + k) / 512 = start / 512 := by omega
      have h2 : (start + k) % 512 = start % 512 + k := by omega
      rw [h1, h2]
    by_cases hecb : ecb = endp
    · rw [if_pos hecb]
      rw [hchunk, hecb]
    · rw [if_neg hecb]
      have hecb1 : start < ecb := by omega
      have hecb2 : ecb < endp := by omega
      rw [ih (endp - ecb) (by omega) ecb endp _ rfl]
      rw [List.append_assoc, hchunk]
      congr 1
      have hsplit : endp - start = (ecb - start) + (endp - ecb) := by omega
      rw [hsplit, List.range_add, List.map_append, List.map_map]
      congr 1
      apply List.map_congr_left
      intro k hk
      rw [List.mem_range] at hk
      simp only [Function.comp_apply]
      congr 2
      · congr 1
        omega
      · omega

/-- C4: for a `DiskInode` whose data blocks over the written range are
properly allocated (the resolved block ids of the touched in-range block
indices are pairwise distinct), and `offset + buf.len() ≤ size`:
`write_at(offset, buf)` succeeds, returns `buf.len()`, and a subsequent
`read_at(offset, len = buf.len())` returns exactly `buf`. -/
theorem C4_write_read_roundtrip (bid : Nat → Nat) (disk : Nat → Nat → Nat)
    (size offset : Nat) (buf : List Nat)
    (hsz : offset + buf.length ≤ size)
    (hinj : ∀ i j, offset / 512 ≤ i → i * 512 < offset + buf.length →
      offset / 512 ≤ j → j * 512 < offset + buf.length → bid i = bid j → i = j) :
    ∃ disk2, write_at bid disk size offset buf = some (disk2, buf.length) ∧
      read_at bid disk2 size offset buf.length = buf := by
  have hendp : min (offset + buf.length) size = offset + buf.length :=
    Nat.min_eq_left hsz
  have hw : write_at bid disk size offset buf =
      some (writeLoop bid buf disk offset (offset + buf.length) 0) := by
    rw [write_at]
    simp only [hendp]
    rw [if_pos (by omega)]
  have hret : (writeLoop bid buf disk offset (offset + buf.length) 0).2 = buf.length := by
    rw [writeLoop_ret bid buf _ disk offset (offset + buf.length) 0 rfl (by omega)]
    omega
  refine ⟨(writeLoop bid buf disk offset (offset + buf.length) 0).1, ?_, ?_⟩
  · rw [hw]
    congr 1
    exact Prod.ext_iff.mpr ⟨rfl, hret⟩
  · rw [read_at]
    rw [hendp]
    by_cases hzero : buf.length = 0
    · rw [if_pos (by omega)]
      exact (List.length_eq_zero.mp hzero).symm
    · rw [if_neg (by omega)]
      rw [readLoop_spec bid _ (offset + buf.length - offset) offset _ [] rfl]
      rw [List.nil_append]
      have hlen : offset + buf.length - offset = buf.length := by omega
      rw [hlen]
      apply List.ext_getElem
      · simp
      · intro i h1 h2
        simp only [List.getElem_map, List.getElem_range]
        rw [writeLoop_written bid buf (offset + buf.length - offset) disk offset
          (offset + buf.length) 0 (offset + i) rfl (by omega)
          (by omega) hinj]
        rw [List.getD_eq_getElem?_getD, List.getElem?_eq_getElem (by omega : 0 + (offset + i - offset) < buf.length)]
        simp only [Option.getD_some]
        congr 1
        omega

/-- Witness for C4: writing `[1, 2, 3]` at offset 510 of a zeroed file of
size 1024 with the identity block map writes 3 bytes across the block
boundary and reading them back yields `[1, 2, 3]`. -/
theorem C4_write_read_roundtrip_witness :
    (write_at (fun n => n) (fun _ _ => 0) 1024 510 [1, 2, 3]).map Prod.snd =
      some 3 ∧
    read_at (fun n => n)
      (writeLoop (fun n => n) [1, 2, 3] (fun _ _ => 0) 510 513 0).1
      1024 510 3 = [1, 2, 3] := by
  obtain ⟨d, hw, hr⟩ := C4_write_read_roundtrip (fun n => n) (fun _ _ => 0)
    1024 510 [1, 2, 3] (by norm_num)
    (fun i j _ _ _ _ h => h)
  have hcomp : write_at (fun n => n) (fun _ _ => 0) 1024 510 [1, 2, 3] =
      some (writeLoop (fun n => n) [1, 2, 3] (fun _ _ => 0) 510 513 0) := by
    rw [write_at]
    norm_num
  rw [hcomp] at hw
  have hd : d = (writeLoop (fun n => n) [1, 2, 3] (fun _ _ => 0) 510 513 0).1 := by
    have := Option.some.inj hw
    rw [this]
  constructor
  · rw [hcomp, hw]
    rfl
  · rw [← hd]
    exact hr

/-! ## os: frame allocator, page table, `MemorySet` (src/os/src/mm/) -/

/-- `PAGE_SIZE` from config.rs. -/
def PAGE_SIZE : Nat := 4096

/-- `TRAMPOLINE = usize::MAX - PAGE_SIZE + 1`; `map_trampoline` maps its
(page-aligned) virtual page number. -/
def TRAMPOLINE_VPN : Nat := (2 ^ 64 - PAGE_SIZE) / PAGE_SIZE

/-- `VirtAddr::floor`. -/
def vaFloor (va : Nat) : Nat := va / PAGE_SIZE

/-- `VirtAddr::ceil`. -/
def vaCeil (va : Nat) : Nat :=
  if va = 0 then 0 else (va + (PAGE_SIZE - 1)) / PAGE_SIZE

/-- `StackFrameAllocator` from frame_allocator.rs.  The head of `recycled`
is the top of the `Vec`. -/
structure FrameAllocatorL where
  current : Nat
  endp : Nat
  recycled : List Nat

/-- `StackFrameAllocator::alloc`: pop a recycled frame if any, otherwise
bump `current` (or fail when the pool is exhausted). -/
def stackAlloc (a : FrameAllocatorL) : Option (Nat × FrameAllocatorL) :=
  match a.recycled with
  | ppn :: rest => some (ppn, { a with recycled := rest })
  | [] =>
    if a.current = a.endp then none
    else some (a.current, { a with current := a.current + 1 })

/-- `StackFrameAllocator::dealloc`, with its double-free panic. -/
def stackDealloc (a : FrameAllocatorL) (ppn : Nat) : Option FrameAllocatorL :=
  if a.current ≤ ppn ∨ ppn ∈ a.recycled then none
  else some { a with recycled := ppn :: a.recycled }

/-- Machine state outside a single address space: the global frame allocator
and the physical memory (ppn → byte offset → byte). -/
structure MachineL where
  allocator : FrameAllocatorL
  mem : Nat → Nat → Nat

/-- `frame_alloc().map(FrameTracker::new)`: allocation zeroes the returned
page. -/
def frame_alloc (m : MachineL) : Option (Nat × MachineL) :=
  (stackAlloc m.allocator).map (fun pa =>
    (pa.1, { allocator := pa.2,
             mem := fun p i => if p = pa.1 then 0 else m.mem p i }))

/-- A page table as its translation map: vpn → (ppn, pte flags). -/
def PTL : Type := Nat → Option (Nat × Nat)

/-- `PageTable::map`: panics (`none`) when the vpn is already mapped. -/
def ptLMap (pt : PTL) (vpn ppn flags : Nat) : Option PTL :=
  match pt vpn with
  | some _ => none
  | none => some (fun v => if v = vpn then some (ppn, flags) else pt v)

/-- `PageTable::unmap`: panics (`none`) when the vpn is not mapped. -/
def ptLUnmap (pt : PTL) (vpn : Nat) : Option PTL :=
  match pt vpn with
  | none => none
  | some _ => some (fun v => if v = vpn then none else pt v)

/-- `MapType` from memory_set.rs. -/
inductive MapTypeL where
  | Identical
  | Framed
  | Linear (pn_offset : Int)
deriving Repr, DecidableEq

/-- `MapArea` from memory_set.rs: the vpn range (end exclusive), the owned
frames of a Framed area, the mapping policy and the permissions. -/
structure MapAreaL where
  vpn_start : Nat
  vpn_end : Nat
  data_frames : Nat → Option Nat
  map_type : MapTypeL
  map_perm : Nat

/-- `MapArea::from_another`: same range, type and permissions, no frames. -/
def mapAreaFromAnother (a : MapAreaL) : MapAreaL :=
  { vpn_start := a.vpn_start, vpn_end := a.vpn_end,
    data_frames := fun _ => none, map_type := a.map_type,
    map_perm := a.map_perm }

/-- The list of vpns of a `VPNRange` iteration. -/
def rangeL (s e : Nat) : List Nat := (List.range (e - s)).map (fun i => s + i)

/-- `MapArea::map_one`: resolve the target ppn per the mapping policy
(allocating and recording a fresh zeroed frame for `Framed`; asserting
SV39 range and wrapping-add for `Linear`), then `page_table.map`. -/
def mapOne (pt : PTL) (machine : MachineL) (area : MapAreaL) (vpn : Nat) :
    Option (PTL × MachineL × MapAreaL) :=
  match area.map_type with
  | MapTypeL.Identical =>
    (ptLMap pt vpn vpn area.map_perm).map (fun pt2 => (pt2, machine, area))
  | MapTypeL.Framed =>
    match frame_alloc machine with
    | none => none
    | some (ppn, machine2) =>
      let area2 := { area with
        data_frames := fun v => if v = vpn then some ppn else area.data_frames v }
      (ptLMap pt vpn ppn area.map_perm).map (fun pt2 => (pt2, machine2, area2))
  | MapTypeL.Linear pn_offset =>
    if vpn < 2 ^ 27 then
      (ptLMap pt vpn ((((vpn : Int) + pn_offset) % (2 ^ 64 : Int)).toNat)
        area.map_perm).map (fun pt2 => (pt2, machine, area))
    else none

/-- `MapArea::unmap_one`: for `Framed` remove and drop the owned frame
(returning it to the allocator), then `page_table.unmap`. -/
def unmapOne (pt : PTL) (machine : MachineL) (area : MapAreaL) (vpn : Nat) :
    Option (PTL × MachineL × MapAreaL) :=
  let step :=
    match area.map_type with
    | MapTypeL.Framed =>
      match area.data_frames vpn with
      | some ppn =>
        (stackDealloc machine.allocator ppn).map (fun al =>
          ({ machine with allocator := al },
           { area with data_frames := fun v => if v = vpn then none else area.data_frames v }))
      | none => some (machine, area)
    | _ => some (machine, area)
  step.bind (fun ma =>
    (ptLUnmap pt vpn).map (fun pt2 => (pt2, ma.1, ma.2)))

/-- `MapArea::map`'s loop body over a list of vpns. -/
def mapRange (pt : PTL) (machine : MachineL) (area : MapAreaL) :
    List Nat → Option (PTL × MachineL × MapAreaL)
  | [] => some (pt, machine, area)
  | vpn :: rest =>
    (mapOne pt machine area vpn).bind
      (fun r => mapRange r.1 r.2.1 r.2.2 rest)

/-- `MapArea::shrink_to`'s unmap loop over a list of vpns. -/
def unmapRange (pt : PTL) (machine : MachineL) (area : MapAreaL) :
    List Nat → Option (PTL × MachineL × MapAreaL)
  | [] => some (pt, machine, area)
  | vpn :: rest =>
    (unmapOne pt machine area vpn).bind
      (fun r => unmapRange r.1 r.2.1 r.2.2 rest)

/-- `MemorySet`: the page table (as its translation map) and the areas. -/
structure MemorySetL where
  page_table : PTL
  areas : List MapAreaL

/-- `MemorySet::push(map_area, None)`: map the whole range, then record the
area. -/
def memPush (ms : MemorySetL) (machine : MachineL) (area : MapAreaL) :
    Option (MemorySetL × MachineL) :=
  (mapRange ms.page_table machine area (rangeL area.vpn_start area.vpn_end)).map
    (fun r => ({ page_table := r.1, areas := ms.areas ++ [r.2.2] }, r.2.1))

/-- `MemorySet::new_bare`: `PageTable::new` allocates (and zeroes) a root
frame. -/
def memNewBare (machine : MachineL) : Option (MemorySetL × MachineL) :=
  (frame_alloc machine).map (fun pm =>
    ({ page_table := fun _ => none, areas := [] }, pm.2))

/-- `PTEFlags::R | PTEFlags::X` used for the trampoline. -/
def TRAMP_FLAGS : Nat := 2 ||| 8

/-- `MemorySet::map_trampoline`: map `TRAMPOLINE` to the `strampoline`
physical page, not owned by any area. -/
def mapTrampoline (strampoline : Nat) (ms : MemorySetL) : Option MemorySetL :=
  (ptLMap ms.page_table TRAMPOLINE_VPN strampoline TRAMP_FLAGS).map
    (fun pt2 => { ms with page_table := pt2 })

/-- The per-vpn copy loop of `from_existed_user`: for each vpn, read the
source and destination ppn through the two tables (`unwrap` panics when
unmapped) and copy the whole physical page. -/
def copyRange (src_pt dst_pt : PTL) (machine : MachineL) :
    List Nat → Option MachineL
  | [] => some machine
  | vpn :: rest =>
    match src_pt vpn, dst_pt vpn with
    | some se, some de =>
      copyRange src_pt dst_pt
        { machine with mem := fun p i => if p = de.1 then machine.mem se.1 i else machine.mem p i }
        rest
    | _, _ => none

/-- The per-area loop of `from_existed_user`: clone the area shape, `push`
it (allocating fresh frames), then copy every page's bytes from the source
space. -/
def processAreas (src_pt : PTL) (ms : MemorySetL) (machine : MachineL) :
    List MapAreaL → Option (MemorySetL × MachineL)
  | [] => some (ms, machine)
  | area :: rest =>
    (memPush ms machine (mapAreaFromAnother area)).bind (fun r =>
      (copyRange src_pt r.1.page_table r.2
          (rangeL area.vpn_start area.vpn_end)).bind (fun m2 =>
        processAreas src_pt r.1 m2 rest))

/-- `MemorySet::from_existed_user`: fresh bare space, trampoline, then clone
and copy every area. -/
def from_existed_user (strampoline : Nat) (user_space : MemorySetL)
    (machine : MachineL) : Option (MemorySetL × MachineL) :=
  (memNewBare machine).bind (fun r =>
    (mapTrampoline strampoline r.1).bind (fun ms1 =>
      processAreas user_space.page_table ms1 r.2 user_space.areas))

/-- `MemorySet::shrink_to`: locate the area whose start vpn is
`start.floor()` and unmap its tail down to `new_end.ceil()`; `false` when no
area matches. -/
def memShrinkTo (ms : MemorySetL) (machine : MachineL) (start new_end : Nat) :
    Option (MemorySetL × MachineL × Bool) :=
  match ms.areas.findIdx? (fun a => a.vpn_start == vaFloor start) with
  | none => some (ms, machine, false)
  | some idx =>
    let a := (ms.areas.getD idx ⟨0, 0, fun _ => none, MapTypeL.Framed, 0⟩)
    if vaCeil new_end ≤ a.vpn_end ∧ a.vpn_start ≤ vaCeil new_end then
      (unmapRange ms.page_table machine a (rangeL (vaCeil new_end) a.vpn_end)).map
        (fun r =>
          ({ page_table := r.1,
             areas := ms.areas.set idx { r.2.2 with vpn_end := vaCeil new_end } },
           r.2.1, true))
    else none

/-- `MemorySet::append_to`: locate the area whose start vpn is
`start.floor()` and map the added tail up to `new_end.ceil()`; `false` when
no area matches. -/
def memAppendTo (ms : MemorySetL) (machine : MachineL) (start new_end : Nat) :
    Option (MemorySetL × MachineL × Bool) :=
  match ms.areas.findIdx? (fun a => a.vpn_start == vaFloor start) with
  | none => some (ms, machine, false)
  | some idx =>
    let a := (ms.areas.getD idx ⟨0, 0, fun _ => none, MapTypeL.Framed, 0⟩)
    if a.vpn_end ≤ vaCeil new_end ∧ a.vpn_start ≤ vaCeil new_end then
      (mapRange ms.page_table machine a (rangeL a.vpn_end (vaCeil new_end))).map
        (fun r =>
          ({ page_table := r.1,
             areas := ms.areas.set idx { r.2.2 with vpn_end := vaCeil new_end } },
           r.2.1, true))
    else none

/-- A frame is free when it is recycled or in the untouched tail of the
pool. -/
def FreeP (a : FrameAllocatorL) (p : Nat) : Prop :=
  p ∈ a.recycled ∨ (a.current ≤ p ∧ p < a.endp)

/-- Well-formedness of the stack allocator: the recycled stack holds
distinct already-handed-out frames and the bump pointer is inside the
pool. -/
def AllocWF (a : FrameAllocatorL) : Prop :=
  a.recycled.Nodup ∧ (∀ r ∈ a.recycled, r < a.current) ∧ a.current ≤ a.endp

lemma frame_alloc_spec {machine : MachineL} {p : Nat} {m2 : MachineL}
    (h : frame_alloc machine = some (p, m2)) (hwf : AllocWF machine.allocator) :
    FreeP machine.allocator p ∧ AllocWF m2.allocator ∧
    ¬ FreeP m2.allocator p ∧
    (∀ q, FreeP m2.allocator q → FreeP machine.allocator q) ∧
    (∀ q, ¬ FreeP machine.allocator q → ∀ i, m2.mem q i = machine.mem q i) := by
  obtain ⟨hnd, hlt, hce⟩ := hwf
  rw [frame_alloc, stackAlloc] at h
  rcases hrec : machine.allocator.recycled with _ | ⟨r, rest⟩
  · rw [hrec] at h hnd hlt
    by_cases hfull : machine.allocator.current = machine.allocator.endp
    · rw [if_pos hfull] at h
      simp at h
    · rw [if_neg hfull] at h
      simp only [Option.map_some', Option.some.injEq, Prod.mk.injEq] at h
      obtain ⟨hp, hm2⟩ := h
      subst hp
      subst hm2
      have hclt : machine.allocator.current < machine.allocator.endp := by omega
      refine ⟨Or.inr ⟨le_refl _, hclt⟩, ⟨?_, ?_, ?_⟩, ?_, ?_, ?_⟩
      · exact List.nodup_nil
      · intro x hx
        simp only [hrec] at hx
        simp at hx
      · simp only
        omega
      · intro hfc
        rcases hfc with hin | hbd
        · simp at hin
        · simp only at hbd
          omega
      · intro q hq
        rcases hq with hin | hbd
        · simp at hin
        · simp only at hbd
          exact Or.inr ⟨by omega, hbd.2⟩
      · intro q hq i
        have hqc : q ≠ machine.allocator.current := by
          intro hc
          exact hq (hc ▸ Or.inr ⟨le_refl _, hclt⟩)
        simp only [hqc, if_neg, not_false_iff]
  · rw [hrec] at h hnd hlt
    simp only [Option.map_some', Option.some.injEq, Prod.mk.injEq] at h
    obtain ⟨hp, hm2⟩ := h
    subst hp
    subst hm2
    have hrnd : r ∉ rest := (List.nodup_cons.mp hnd).1
    have hrlt : r < machine.allocator.current := hlt r (by simp)
    refine ⟨Or.inl (by rw [hrec]; simp), ⟨(List.nodup_cons.mp hnd).2, ?_, hce⟩, ?_, ?_, ?_⟩
    · intro x hx
      exact hlt x (by simp [hx])
    · intro hfc
      rcases hfc with hin | hbd
      · exact hrnd hin
      · simp only at hbd
        omega
    · intro q hq
      rcases hq with hin | hbd
      · exact Or.inl (by rw [hrec]; simp only [List.mem_cons]; exact Or.inr hin)
      · exact Or.inr hbd
    · intro q hq i
      have hqp : q ≠ r := by
        intro hc
        exact hq (hc ▸ Or.inl (by rw [hrec]; simp))
      simp only [hqp, if_neg, not_false_iff]

lemma mem_rangeL {s e v : Nat} : v ∈ rangeL s e ↔ (s ≤ v ∧ v < e) := by
  rw [rangeL]
  simp only [List.mem_map, List.mem_range]
  constructor
  · rintro ⟨i, hi, rfl⟩
    omega
  · intro ⟨h1, h2⟩
    exact ⟨v - s, by omega, by omega⟩

lemma rangeL_nodup (s e : Nat) : (rangeL s e).Nodup := by
  rw [rangeL]
  apply List.Nodup.map
  · intro a b hab
    exact Nat.add_left_cancel hab
  · exact List.nodup_range _

lemma mapOne_framed_spec {pt : PTL} {machine : MachineL} {area : MapAreaL}
    {vpn : Nat} {pt2 : PTL} {m2 : MachineL} {area2 : MapAreaL}
    (h : mapOne pt machine area vpn = some (pt2, m2, area2))
    (hty : area.map_type = MapTypeL.Framed) :
    ∃ ppn, frame_alloc machine = some (ppn, m2) ∧ pt vpn = none ∧
      pt2 = (fun v => if v = vpn then some (ppn, area.map_perm) else pt v) ∧
      area2.map_type = MapTypeL.Framed ∧ area2.vpn_start = area.vpn_start ∧
      area2.vpn_end = area.vpn_end ∧ area2.map_perm = area.map_perm := by
  rw [mapOne, hty] at h
  rcases halloc : frame_alloc machine with _ | ⟨ppn, machine2⟩
  · rw [halloc] at h
    simp at h
  · rw [halloc] at h
    simp only [ptLMap] at h
    rcases hpt : pt vpn with _ | e
    · rw [hpt] at h
      simp only [Option.map_some', Option.some.injEq, Prod.mk.injEq] at h
      obtain ⟨h1, h2, h3⟩ := h
      refine ⟨ppn, ?_, rfl, h1.symm, ?_, ?_, ?_, ?_⟩
      · rw [h2]
      · rw [← h3]
      · rw [← h3]
      · rw [← h3]
      · rw [← h3]

    · rw [hpt] at h
      simp at h

lemma mapRange_framed_spec :
    ∀ (l : List Nat) (pt : PTL) (machine : MachineL) (area : MapAreaL)
      (pt2 : PTL) (m2 : MachineL) (area2 : MapAreaL),
      mapRange pt machine area l = some (pt2, m2, area2) →
      area.map_type = MapTypeL.Framed →
      AllocWF machine.allocator → l.Nodup →
      AllocWF m2.allocator ∧
      (∀ q, FreeP m2.allocator q → FreeP machine.allocator q) ∧
      (∀ q, ¬ FreeP machine.allocator q → ∀ i, m2.mem q i = machine.mem q i) ∧
      area2.map_type = MapTypeL.Framed ∧
      area2.vpn_start = area.vpn_start ∧ area2.vpn_end = area.vpn_end ∧
      area2.map_perm = area.map_perm ∧
      (∀ v ∈ l, pt v = none) ∧
      (∀ v, v ∉ l → pt2 v = pt v) ∧
      (∀ v ∈ l, ∃ dp, pt2 v = some (dp, area.map_perm) ∧
        FreeP machine.allocator dp ∧ ¬ FreeP m2.allocator dp) ∧
      (∀ v1 ∈ l, ∀ v2 ∈ l, v1 ≠ v2 → ∀ d1 f1 d2 f2,
        pt2 v1 = some (d1, f1) → pt2 v2 = some (d2, f2) → d1 ≠ d2) := by
  intro l
  induction l with
  | nil =>
    intro pt machine area pt2 m2 area2 h hty hwf _
    rw [mapRange] at h
    simp only [Option.some.injEq, Prod.mk.injEq] at h
    obtain ⟨h1, h2, h3⟩ := h
    subst h1
    subst h2
    subst h3
    refine ⟨hwf, fun q hq => hq, fun q _ i => rfl, hty, rfl, rfl, rfl,
      ?_, fun v _ => rfl, ?_, ?_⟩
    · intro v hv
      simp at hv
    · intro v hv
      simp at hv
    · intro v1 hv1
      simp at hv1
  | cons vpn rest ih =>
    intro pt machine area pt2 m2 area2 h hty hwf hnd
    rw [mapRange] at h
    rcases hone : mapOne pt machine area vpn with _ | ⟨⟨pt1, m1, a1⟩⟩
    · rw [hone] at h
      simp at h
    · rw [hone] at h
      rw [Option.some_bind] at h
      obtain ⟨ppn, halloc, hpt_none, hpt1, ha1ty, ha1s, ha1e, ha1p⟩ :=
        mapOne_framed_spec hone hty
      obtain ⟨hfree_ppn, hwf1, hnotfree1, hshrink1, hmem1⟩ :=
        frame_alloc_spec halloc hwf
      have hvnin : vpn ∉ rest := (List.nodup_cons.mp hnd).1
      have hrestnd : rest.Nodup := (List.nodup_cons.mp hnd).2
      obtain ⟨ihwf, ihshrink, ihmem, ihty, ihs, ihe, ihp, ihnone, ihout,
        ihmapped, ihinj⟩ := ih pt1 m1 a1 pt2 m2 area2 h ha1ty hwf1 hrestnd
      have hpt2vpn : pt2 vpn = some (ppn, area.map_perm) := by
        rw [ihout vpn hvnin, hpt1]
        simp
      refine ⟨ihwf, ?_, ?_, ihty, by rw [ihs, ha1s], by rw [ihe, ha1e],
        by rw [ihp, ha1p], ?_, ?_, ?_, ?_⟩
      · intro q hq
        exact hshrink1 q (ihshrink q hq)
      · intro q hq i
        have hq1 : ¬ FreeP m1.allocator q := fun hc => hq (hshrink1 q hc)
        rw [ihmem q hq1 i, hmem1 q hq i]
      · intro v hv
        rcases List.mem_cons.mp hv with rfl | hv'
        · exact hpt_none
        · have := ihnone v hv'
          rw [hpt1] at this
          have hvne : ¬(v = vpn) := fun hc => hvnin (hc ▸ hv')
          simp only [hvne, if_neg, not_false_iff] at this
          exact this
      · intro v hv
        have hvr : v ∉ rest := fun hc => hv (List.mem_cons.mpr (Or.inr hc))
        have hvv : ¬(v = vpn) := fun hc => hv (List.mem_cons.mpr (Or.inl hc))
        rw [ihout v hvr, hpt1]
        simp only [hvv, if_neg, not_false_iff]
      · intro v hv
        rcases List.mem_cons.mp hv with rfl | hv'
        · exact ⟨ppn, hpt2vpn, hfree_ppn,
            fun hc => hnotfree1 (ihshrink ppn hc)⟩
        · obtain ⟨dp, hdp, hdpfree, hdpnot⟩ := ihmapped v hv'
          exact ⟨dp, by rw [hdp, ha1p], hshrink1 dp hdpfree, hdpnot⟩
      · intro v1 hv1 v2 hv2 hne d1 f1 d2 f2 h1 h2
        rcases List.mem_cons.mp hv1 with rfl | hv1'
        · rcases List.mem_cons.mp hv2 with rfl | hv2'
          · exact absurd rfl hne
          · rw [hpt2vpn] at h1
            obtain ⟨hd1, -⟩ := Prod.mk.injEq .. ▸ Option.some.inj h1
            obtain ⟨dp, hdp, hdpfree', hdpnot⟩ := ihmapped v2 hv2'
            rw [hdp] at h2
            obtain ⟨hd2, -⟩ := Prod.mk.injEq .. ▸ Option.some.inj h2
            intro hc
            apply hnotfree1
            rw [hd1, hc, ← hd2]
            exact hdpfree'
        · rcases List.mem_cons.mp hv2 with rfl | hv2'
          · rw [hpt2vpn] at h2
            obtain ⟨hd2, -⟩ := Prod.mk.injEq .. ▸ Option.some.inj h2
            obtain ⟨dp, hdp, hdpfree', hdpnot⟩ := ihmapped v1 hv1'
            rw [hdp] at h1
            obtain ⟨hd1, -⟩ := Prod.mk.injEq .. ▸ Option.some.inj h1
            intro hc
            apply hnotfree1
            rw [hd2, ← hc, ← hd1]
            exact hdpfree'
          · exact ihinj v1 hv1' v2 hv2' hne d1 f1 d2 f2 h1 h2

lemma copyRange_spec (src_pt dst_pt : PTL) :
    ∀ (l : List Nat) (machine m2 : MachineL),
      copyRange src_pt dst_pt machine l = some m2 →
      l.Nodup →
      (∀ v1 ∈ l, ∀ v2 ∈ l, v1 ≠ v2 → ∀ d1 f1 d2 f2,
        dst_pt v1 = some (d1, f1) → dst_pt v2 = some (d2, f2) → d1 ≠ d2) →
      (∀ v ∈ l, ∀ w ∈ l, ∀ dv fv sw gw,
        dst_pt v = some (dv, fv) → src_pt w = some (sw, gw) → dv ≠ sw) →
      m2.allocator = machine.allocator ∧
      (∀ v ∈ l, ∀ dv fv sv gv, dst_pt v = some (dv, fv) →
        src_pt v = some (sv, gv) → ∀ i, m2.mem dv i = machine.mem sv i) ∧
      (∀ p, (∀ v ∈ l, ∀ dv fv, dst_pt v = some (dv, fv) → p ≠ dv) →
        ∀ i, m2.mem p i = machine.mem p i) := by
  intro l
  induction l with
  | nil =>
    intro machine m2 h _ _ _
    rw [copyRange] at h
    obtain rfl := Option.some.inj h
    exact ⟨rfl, fun v hv => by simp at hv, fun p _ i => rfl⟩
  | cons vpn rest ih =>
    intro machine m2 h hnd hdd hds
    have hvnin : vpn ∉ rest := (List.nodup_cons.mp hnd).1
    have hrnd : rest.Nodup := (List.nodup_cons.mp hnd).2
    rw [copyRange] at h
    rcases hsrc : src_pt vpn with _ | se
    · rw [hsrc] at h
      simp at h
    · rcases hdst : dst_pt vpn with _ | de
      · rw [hsrc, hdst] at h
        simp at h
      · rw [hsrc, hdst] at h
        obtain ⟨iha, ihw, ihu⟩ := ih _ m2 h hrnd
          (fun v1 hv1 v2 hv2 => hdd v1 (by simp [hv1]) v2 (by simp [hv2]))
          (fun v hv w hw => hds v (by simp [hv]) w (by simp [hw]))
        refine ⟨iha, ?_, ?_⟩
        · intro v hv dv fv sv gv hdv hsv i
          rcases List.mem_cons.mp hv with rfl | hv2
          · have hdv2 := hdv
            have hsv2 := hsv
            rw [hdst] at hdv2
            rw [hsrc] at hsv2
            have hde : de = (dv, fv) := Option.some.inj hdv2
            have hse : se = (sv, gv) := Option.some.inj hsv2
            have hu : ∀ w ∈ rest, ∀ dw fw, dst_pt w = some (dw, fw) → dv ≠ dw := by
              intro w hw dw fw hdw
              have hvw : v ≠ w := fun hc => hvnin (hc ▸ hw)
              exact hdd v (by simp) w (by simp [hw]) hvw dv fv dw fw hdv hdw
            rw [ihu dv hu i]
            simp only
            rw [if_pos (by rw [hde]), hse]
          · rw [ihw v hv2 dv fv sv gv hdv hsv i]
            simp only
            have hsne : de.1 ≠ sv := hds vpn (by simp) v (by simp [hv2])
              de.1 de.2 sv gv (by rw [hdst]) hsv
            rw [if_neg (Ne.symm hsne)]
        · intro p hp i
          have hu : ∀ v ∈ rest, ∀ dv fv, dst_pt v = some (dv, fv) → p ≠ dv :=
            fun v hv dv fv hdv => hp v (by simp [hv]) dv fv hdv
          rw [ihu p hu i]
          simp only
          have hpde : p ≠ de.1 :=
            hp vpn (by simp) de.1 de.2 (by rw [hdst])
          rw [if_neg hpde]

/-- The shape of a `MapArea`: vpn range, mapping type, permissions. -/
def areaShape (a : MapAreaL) : Nat × Nat × MapTypeL × Nat :=
  (a.vpn_start, a.vpn_end, a.map_type, a.map_perm)

lemma processAreas_spec :
    ∀ (l : List MapAreaL) (src_pt : PTL) (ms : MemorySetL) (machine : MachineL)
      (ms2 : MemorySetL) (m2 : MachineL),
      processAreas src_pt ms machine l = some (ms2, m2) →
      AllocWF machine.allocator →
      (∀ a ∈ l, a.map_type = MapTypeL.Framed) →
      (∀ a ∈ l, ∀ v, a.vpn_start ≤ v → v < a.vpn_end →
        ∃ sp sf, src_pt v = some (sp, sf) ∧ ¬ FreeP machine.allocator sp) →
      ms2.areas.map areaShape = ms.areas.map areaShape ++ l.map areaShape ∧
      AllocWF m2.allocator ∧
      (∀ q, FreeP m2.allocator q → FreeP machine.allocator q) ∧
      (∀ q, ¬ FreeP machine.allocator q → ∀ i, m2.mem q i = machine.mem q i) ∧
      (∀ v e, ms.page_table v = some e → ms2.page_table v = some e) ∧
      (∀ a ∈ l, ∀ v, a.vpn_start ≤ v → v < a.vpn_end → ∀ sp sf,
        src_pt v = some (sp, sf) →
        ∃ dp, ms2.page_table v = some (dp, a.map_perm) ∧
          (∀ i, m2.mem dp i = machine.mem sp i)) := by
  intro l
  induction l with
  | nil =>
    intro src_pt ms machine ms2 m2 h hwf _ _
    rw [processAreas] at h
    obtain ⟨h1, h2⟩ := Prod.mk.injEq .. ▸ Option.some.inj h
    subst h1
    subst h2
    exact ⟨by simp, hwf, fun q hq => hq, fun q _ i => rfl,
      fun v e he => he, fun a ha => by simp at ha⟩
  | cons area rest ih =>
    intro src_pt ms machine ms2 m2 h hwf hframed hsrc
    rw [processAreas] at h
    rcases hpush : memPush ms machine (mapAreaFromAnother area) with _ | ⟨⟨ms1, mach1⟩⟩
    · rw [hpush] at h
      simp at h
    · rw [hpush] at h
      rw [Option.some_bind] at h
      rcases hcopy : copyRange src_pt ms1.page_table mach1
          (rangeL area.vpn_start area.vpn_end) with _ | machC
      · rw [hcopy] at h
        simp at h
      · rw [hcopy] at h
        rw [Option.some_bind] at h
        -- unpack the push
        rw [memPush] at hpush
        rcases hmr : mapRange ms.page_table machine (mapAreaFromAnother area)
            (rangeL (mapAreaFromAnother area).vpn_start
              (mapAreaFromAnother area).vpn_end) with _ | ⟨⟨ptN, machN, areaN⟩⟩
        · rw [hmr] at hpush
          simp at hpush
        · rw [hmr] at hpush
          simp only [Option.map_some', Option.some.injEq, Prod.mk.injEq] at hpush
          obtain ⟨hms1, hmach1⟩ := hpush
          have hfa_ty : (mapAreaFromAnother area).map_type = MapTypeL.Framed := by
            rw [mapAreaFromAnother]
            exact hframed area (by simp)
          obtain ⟨hwf1, hshrink1, hmem1, hNty, hNs, hNe, hNp, hnone1, hout1,
            hmapped1, hinj1⟩ :=
            mapRange_framed_spec _ _ _ _ _ _ _ hmr hfa_ty hwf
              (rangeL_nodup _ _)
          have hfa_s : (mapAreaFromAnother area).vpn_start = area.vpn_start := rfl
          have hfa_e : (mapAreaFromAnother area).vpn_end = area.vpn_end := rfl
          have hfa_p : (mapAreaFromAnother area).map_perm = area.map_perm := rfl
          rw [hfa_s, hfa_e] at hmr hnone1 hout1 hmapped1 hinj1
          have hms1pt : ms1.page_table = ptN := by rw [← hms1]
          have hms1areas : ms1.areas = ms.areas ++ [areaN] := by rw [← hms1]
          have hmach1N : mach1 = machN := hmach1.symm
          subst hmach1N
          -- copy-phase facts
          have hdd : ∀ v1 ∈ rangeL area.vpn_start area.vpn_end,
              ∀ v2 ∈ rangeL area.vpn_start area.vpn_end, v1 ≠ v2 →
              ∀ d1 f1 d2 f2, ms1.page_table v1 = some (d1, f1) →
                ms1.page_table v2 = some (d2, f2) → d1 ≠ d2 := by
            rw [hms1pt]
            exact hinj1
          have hds : ∀ v ∈ rangeL area.vpn_start area.vpn_end,
              ∀ w ∈ rangeL area.vpn_start area.vpn_end,
              ∀ dv fv sw gw, ms1.page_table v = some (dv, fv) →
                src_pt w = some (sw, gw) → dv ≠ sw := by
            intro v hv w hw dv fv sw gw hdv hsw
            obtain ⟨dp, hdp, hdpfree, -⟩ := hmapped1 v hv
            rw [hms1pt] at hdv
            rw [hdp] at hdv
            obtain ⟨hd, -⟩ := Prod.mk.injEq .. ▸ (Option.some.inj hdv).symm
            obtain ⟨hw1, hw2⟩ := mem_rangeL.mp hw
            obtain ⟨sp, sf, hsp, hspnf⟩ := hsrc area (by simp) w hw1 hw2
            rw [hsp] at hsw
            obtain ⟨hs, -⟩ := Prod.mk.injEq .. ▸ (Option.some.inj hsw).symm
            rw [hd, hs]
            intro hc
            exact hspnf (hc ▸ hdpfree)
          obtain ⟨hCalloc, hCwrite, hCuntouched⟩ :=
            copyRange_spec src_pt ms1.page_table _ mach1 machC hcopy
              (rangeL_nodup _ _) hdd hds
          -- induction on the remaining areas
          have hwfC : AllocWF machC.allocator := by
            rw [hCalloc]
            exact hwf1
          have hsrcC : ∀ a ∈ rest, ∀ v, a.vpn_start ≤ v → v < a.vpn_end →
              ∃ sp sf, src_pt v = some (sp, sf) ∧ ¬ FreeP machC.allocator sp := by
            intro a ha v hv1 hv2
            obtain ⟨sp, sf, hsp, hspnf⟩ := hsrc a (by simp [ha]) v hv1 hv2
            refine ⟨sp, sf, hsp, ?_⟩
            rw [hCalloc]
            intro hc
            exact hspnf (hshrink1 sp hc)
          obtain ⟨ihshape, ihwf, ihshrink, ihmem, ihpres, ihmapped⟩ :=
            ih src_pt ms1 machC ms2 m2 h hwfC
              (fun a ha => hframed a (by simp [ha])) hsrcC
          -- frames of this area are not free after the push
          have hdpnf : ∀ v ∈ rangeL area.vpn_start area.vpn_end,
              ∀ dv fv, ms1.page_table v = some (dv, fv) →
              FreeP machine.allocator dv ∧ ¬ FreeP machC.allocator dv := by
            intro v hv dv fv hdv
            obtain ⟨dp, hdp, hdpfree, hdpnot⟩ := hmapped1 v hv
            rw [hms1pt, hdp] at hdv
            obtain ⟨hd, -⟩ := Prod.mk.injEq .. ▸ (Option.some.inj hdv).symm
            rw [hd]
            refine ⟨hdpfree, ?_⟩
            rw [hCalloc]
            exact hdpnot
          refine ⟨?_, ihwf, ?_, ?_, ?_, ?_⟩
          · rw [ihshape, hms1areas]
            simp only [List.map_append, List.map_cons, List.map_nil,
              List.append_assoc, List.nil_append, List.cons_append]
            congr 2
            rw [areaShape, areaShape, hNs, hNe, hNp, hNty, hfa_s, hfa_e, hfa_p]
            rw [hframed area (by simp)]
          · intro q hq
            have h1 := ihshrink q hq
            rw [hCalloc] at h1
            exact hshrink1 q h1
          · intro q hq i
            have hq1 : ¬ FreeP mach1.allocator q := fun hc => hq (hshrink1 q hc)
            have hqC : ¬ FreeP machC.allocator q := by
              rw [hCalloc]
              exact hq1
            rw [ihmem q hqC i]
            have hqd : ∀ v ∈ rangeL area.vpn_start area.vpn_end,
                ∀ dv fv, ms1.page_table v = some (dv, fv) → q ≠ dv := by
              intro v hv dv fv hdv
              intro hc
              exact hq (hc ▸ (hdpnf v hv dv fv hdv).1)
            rw [hCuntouched q hqd i, hmem1 q hq i]
          · intro v e he
            apply ihpres
            rw [hms1pt]
            have hvnin : v ∉ rangeL area.vpn_start area.vpn_end := by
              intro hv
              rw [hnone1 v hv] at he
              exact Option.noConfusion he
            rw [hout1 v hvnin]
            exact he
          · intro a ha v hv1 hv2 sp sf hsp
            rcases List.mem_cons.mp ha with rfl | ha2
            · -- the area processed in this step
              have hvmem : v ∈ rangeL a.vpn_start a.vpn_end :=
                mem_rangeL.mpr ⟨hv1, hv2⟩
              obtain ⟨dp, hdp, hdpfree, hdpnot⟩ := hmapped1 v hvmem
              have hdpC : ¬ FreeP machC.allocator dp := by
                rw [hCalloc]
                exact hdpnot
              obtain ⟨sp0, sf0, hsp0, hsp0nf⟩ := hsrc a (by simp) v hv1 hv2
              have hspe : sp0 = sp := by
                rw [hsp0] at hsp
                obtain ⟨h1, -⟩ := Prod.mk.injEq .. ▸ (Option.some.inj hsp).symm
                exact h1.symm
              rw [hspe] at hsp0nf
              refine ⟨dp, ?_, ?_⟩
              · apply ihpres
                rw [hms1pt, hdp, hfa_p]
              · intro i
                have hw := hCwrite v hvmem dp (mapAreaFromAnother a).map_perm
                  sp sf (by rw [hms1pt, hdp]) hsp i
                rw [ihmem dp hdpC i, hw, hmem1 sp hsp0nf i]
            · -- an area processed in the remaining steps
              obtain ⟨dp, hdp, hcontent⟩ := ihmapped a ha2 v hv1 hv2 sp sf hsp
              refine ⟨dp, hdp, ?_⟩
              intro i
              obtain ⟨sp0, sf0, hsp0, hsp0nf⟩ := hsrc a (by simp [ha2]) v hv1 hv2
              have hspe : sp0 = sp := by
                rw [hsp0] at hsp
                obtain ⟨h1, -⟩ := Prod.mk.injEq .. ▸ (Option.some.inj hsp).symm
                exact h1.symm
              rw [hspe] at hsp0nf
              have hspd : ∀ w ∈ rangeL area.vpn_start area.vpn_end,
                  ∀ dw fw, ms1.page_table w = some (dw, fw) → sp ≠ dw := by
                intro w hw dw fw hdw
                intro hc
                exact hsp0nf (hc ▸ (hdpnf w hw dw fw hdw).1)
              rw [hcontent i, hCuntouched sp hspd i, hmem1 sp hsp0nf i]

/-- C3: `MemorySet::from_existed_user` on a user space `M` (all areas
Framed, every area vpn mapped to an allocated — hence non-free — frame)
yields a space with the same areas (same vpn ranges, map type and
permissions) in which every area-mapped vpn is mapped with the area's
permissions to a page whose bytes equal the bytes of the page `M` maps that
vpn to. -/
theorem C3_from_existed_user (strampoline : Nat) (M Mp : MemorySetL)
    (machine machinep : MachineL)
    (hwf : AllocWF machine.allocator)
    (hframed : ∀ a ∈ M.areas, a.map_type = MapTypeL.Framed)
    (hsrc : ∀ a ∈ M.areas, ∀ v, a.vpn_start ≤ v → v < a.vpn_end →
      ∃ sp sf, M.page_table v = some (sp, sf) ∧ ¬ FreeP machine.allocator sp)
    (hrun : from_existed_user strampoline M machine = some (Mp, machinep)) :
    Mp.areas.map areaShape = M.areas.map areaShape ∧
    (∀ a ∈ M.areas, ∀ v, a.vpn_start ≤ v → v < a.vpn_end →
      ∀ sp sf, M.page_table v = some (sp, sf) →
      ∃ dp, Mp.page_table v = some (dp, a.map_perm) ∧
        ∀ i, machinep.mem dp i = machine.mem sp i) := by
  rw [from_existed_user, memNewBare] at hrun
  rcases halloc : frame_alloc machine with _ | ⟨⟨root, machine0⟩⟩
  · rw [halloc] at hrun
    simp at hrun
  · rw [halloc] at hrun
    simp only [Option.map_some', Option.some_bind] at hrun
    rw [mapTrampoline, ptLMap] at hrun
    simp only [Option.map_some', Option.some_bind] at hrun
    obtain ⟨-, hwf0, -, hshrink0, hmem0⟩ := frame_alloc_spec halloc hwf
    have hsrc0 : ∀ a ∈ M.areas, ∀ v, a.vpn_start ≤ v → v < a.vpn_end →
        ∃ sp sf, M.page_table v = some (sp, sf) ∧
          ¬ FreeP machine0.allocator sp := by
      intro a ha v hv1 hv2
      obtain ⟨sp, sf, hsp, hspnf⟩ := hsrc a ha v hv1 hv2
      exact ⟨sp, sf, hsp, fun hc => hspnf (hshrink0 sp hc)⟩
    obtain ⟨hshape, -, -, -, -, hmapped⟩ :=
      processAreas_spec M.areas M.page_table _ machine0 Mp machinep hrun
        hwf0 hframed hsrc0
    refine ⟨by simpa using hshape, ?_⟩
    intro a ha v hv1 hv2 sp sf hsp
    obtain ⟨dp, hdp, hcontent⟩ := hmapped a ha v hv1 hv2 sp sf hsp
    refine ⟨dp, hdp, ?_⟩
    intro i
    obtain ⟨sp0, sf0, hsp0, hsp0nf⟩ := hsrc a ha v hv1 hv2
    have hspe : sp0 = sp := by
      rw [hsp0] at hsp
      obtain ⟨h1, -⟩ := Prod.mk.injEq .. ▸ (Option.some.inj hsp).symm
      exact h1.symm
    rw [hspe] at hsp0nf
    rw [hcontent i, hmem0 sp hsp0nf i]

/-- Witness for C3: a single-area space (vpns `[4,5)`, perm 3) whose page 4
holds bytes `7` is cloned; the clone maps vpn 4 with perm 3 to a page with
the same bytes. -/
theorem C3_from_existed_user_witness :
    ∃ Mp machinep dp,
      from_existed_user 999
        { page_table := fun v => if v = 4 then some (50, 3) else none,
          areas := [⟨4, 5, fun _ => none, MapTypeL.Framed, 3⟩] }
        { allocator := ⟨100, 200, []⟩,
          mem := fun p _ => if p = 50 then 7 else 0 } = some (Mp, machinep) ∧
      Mp.areas.map areaShape = [(4, 5, MapTypeL.Framed, 3)] ∧
      Mp.page_table 4 = some (dp, 3) ∧ machinep.mem dp 0 = 7 := by
  have hsome : (from_existed_user 999
      { page_table := fun v => if v = 4 then some (50, 3) else none,
        areas := [⟨4, 5, fun _ => none, MapTypeL.Framed, 3⟩] }
      { allocator := ⟨100, 200, []⟩,
        mem := fun p _ => if p = 50 then 7 else 0 }).isSome = true := by rfl
  rcases hr : from_existed_user 999
      { page_table := fun v => if v = 4 then some (50, 3) else none,
        areas := [⟨4, 5, fun _ => none, MapTypeL.Framed, 3⟩] }
      { allocator := ⟨100, 200, []⟩,
        mem := fun p _ => if p = 50 then 7 else 0 } with _ | ⟨⟨Mp, machinep⟩⟩
  · rw [hr] at hsome
    exact absurd hsome (by simp)
  · have hthm := C3_from_existed_user 999 _ Mp _ machinep
      ⟨List.nodup_nil, fun r hr2 => absurd hr2 (by simp), by norm_num⟩
      (by
        intro a ha
        simp only [List.mem_singleton] at ha
        rw [ha])
      (by
        intro a ha v hv1 hv2
        simp only [List.mem_singleton] at ha
        subst ha
        simp only at hv1 hv2
        have hv4 : v = 4 := by omega
        subst hv4
        refine ⟨50, 3, by simp, ?_⟩
        rw [FreeP]
        simp only [List.not_mem_nil, false_or]
        push_neg
        intro h50
        norm_num at h50)
      hr
    obtain ⟨hshape, hmapped⟩ := hthm
    obtain ⟨dp, hdp, hcontent⟩ :=
      hmapped (⟨4, 5, fun _ => none, MapTypeL.Framed, 3⟩ : MapAreaL) (by simp)
        4 (by norm_num) (by norm_num) 50 3 (by simp)
    refine ⟨Mp, machinep, dp, rfl, by simpa using hshape, hdp, ?_⟩
    rw [hcontent 0]
    simp

/-! ### C9: `sys_sbrk` / `ProcessControlBlock::change_program_brk` -/

/-- The heap bookkeeping of `ProcessControlBlockInner`: `heap_bottom` and
`program_brk` (both byte addresses). -/
structure BrkState where
  heap_bottom : Nat
  program_brk : Nat
deriving Repr, DecidableEq

/-- `ProcessControlBlock::change_program_brk`.  The outer `Option` is a
panic inside `shrink_to`/`append_to` (a violated range assert or a
page-table/allocator panic); the inner `Option Nat` is the Rust return
value (`None` = failure, `Some old_break` = success). -/
def changeProgramBrk (ms : MemorySetL) (machine : MachineL) (st : BrkState)
    (size : Int) : Option (Option Nat × MemorySetL × MachineL × BrkState) :=
  let old_break := st.program_brk
  let new_brk : Int := (st.program_brk : Int) + size
  if new_brk < (st.heap_bottom : Int) then some (none, ms, machine, st)
  else
    let result := if size < 0 then
        memShrinkTo ms machine st.heap_bottom new_brk.toNat
      else
        memAppendTo ms machine st.heap_bottom new_brk.toNat
    result.map (fun r =>
      if r.2.2 then
        (some old_break, r.1, r.2.1, { st with program_brk := new_brk.toNat })
      else
        (none, r.1, r.2.1, st))

/-- `sys_sbrk`: `change_program_brk`'s `Some old_brk` becomes `old_brk`,
`None` becomes `-1`. -/
def sysSbrk (ms : MemorySetL) (machine : MachineL) (st : BrkState)
    (size : Int) : Option (Int × MemorySetL × MachineL × BrkState) :=
  (changeProgramBrk ms machine st size).map (fun r =>
    (match r.1 with
     | some old_brk => (old_brk : Int)
     | none => -1, r.2))

/-- C9: a non-panicking `sys_sbrk(size)` behaves as specified: when the
requested new break `program_brk + size` would go below `heap_bottom`, it
returns `-1` and leaves everything unchanged; otherwise `shrink_to` (for
`size < 0`) resp. `append_to` (for `size ≥ 0`) is applied to the area at
`heap_bottom`, and on success (`true`) the call returns the old break and
sets `program_brk` to the new value, while on failure (`false`) it returns
`-1` with the break unchanged. -/
theorem C9_sys_sbrk (ms ms2 : MemorySetL) (machine machine2 : MachineL)
    (st st2 : BrkState) (size ret : Int)
    (hrun : sysSbrk ms machine st size = some (ret, ms2, machine2, st2)) :
    (((st.program_brk : Int) + size < (st.heap_bottom : Int)) →
      ret = -1 ∧ ms2 = ms ∧ machine2 = machine ∧ st2 = st) ∧
    (((st.heap_bottom : Int) ≤ (st.program_brk : Int) + size) → size < 0 →
      ∃ r, memShrinkTo ms machine st.heap_bottom
          ((st.program_brk : Int) + size).toNat = some r ∧
        ms2 = r.1 ∧ machine2 = r.2.1 ∧
        (r.2.2 = true → ret = (st.program_brk : Int) ∧
          st2 = { heap_bottom := st.heap_bottom,
                  program_brk := ((st.program_brk : Int) + size).toNat }) ∧
        (r.2.2 = false → ret = -1 ∧ st2 = st)) ∧
    (((st.heap_bottom : Int) ≤ (st.program_brk : Int) + size) → 0 ≤ size →
      ∃ r, memAppendTo ms machine st.heap_bottom
          ((st.program_brk : Int) + size).toNat = some r ∧
        ms2 = r.1 ∧ machine2 = r.2.1 ∧
        (r.2.2 = true → ret = (st.program_brk : Int) ∧
          st2 = { heap_bottom := st.heap_bottom,
                  program_brk := ((st.program_brk : Int) + size).toNat }) ∧
        (r.2.2 = false → ret = -1 ∧ st2 = st)) := by
  rw [sysSbrk, changeProgramBrk] at hrun
  simp only at hrun
  by_cases hlow : (st.program_brk : Int) + size < (st.heap_bottom : Int)
  · rw [if_pos hlow] at hrun
    simp only [Option.map_some', Option.some.injEq] at hrun
    have h1 := congrArg (fun x => x.1) hrun
    have h2 := congrArg (fun x => x.2.1) hrun
    have h3 := congrArg (fun x => x.2.2.1) hrun
    have h4 := congrArg (fun x => x.2.2.2) hrun
    refine ⟨fun _ => ⟨h1.symm, h2.symm, h3.symm, h4.symm⟩,
      fun hge _ => absurd hlow (by omega), fun hge _ => absurd hlow (by omega)⟩
  · rw [if_neg hlow] at hrun
    push_neg at hlow
    refine ⟨fun hc => absurd hc (by omega), ?_, ?_⟩
    · intro _ hneg
      rw [if_pos hneg] at hrun
      rcases hm : memShrinkTo ms machine st.heap_bottom
          ((st.program_brk : Int) + size).toNat with _ | r
      · rw [hm] at hrun
        simp at hrun
      · rw [hm] at hrun
        simp only [Option.map_some', Option.some.injEq] at hrun
        refine ⟨r, rfl, ?_⟩
        by_cases hb2 : r.2.2 = true
        · rw [if_pos hb2] at hrun
          have h1 := congrArg (fun x => x.1) hrun
          have h2 := congrArg (fun x => x.2.1) hrun
          have h3 := congrArg (fun x => x.2.2.1) hrun
          have h4 := congrArg (fun x => x.2.2.2) hrun
          exact ⟨h2.symm, h3.symm, fun _ => ⟨h1.symm, h4.symm⟩,
            fun hbf => absurd (hbf ▸ hb2) (by simp)⟩
        · rw [if_neg hb2] at hrun
          have h1 := congrArg (fun x => x.1) hrun
          have h2 := congrArg (fun x => x.2.1) hrun
          have h3 := congrArg (fun x => x.2.2.1) hrun
          have h4 := congrArg (fun x => x.2.2.2) hrun
          exact ⟨h2.symm, h3.symm, fun hbt => absurd hbt hb2,
            fun _ => ⟨h1.symm, h4.symm⟩⟩
    · intro _ hpos
      rw [if_neg (by omega)] at hrun
      rcases hm : memAppendTo ms machine st.heap_bottom
          ((st.program_brk : Int) + size).toNat with _ | r
      · rw [hm] at hrun
        simp at hrun
      · rw [hm] at hrun
        simp only [Option.map_some', Option.some.injEq] at hrun
        refine ⟨r, rfl, ?_⟩
        by_cases hb2 : r.2.2 = true
        · rw [if_pos hb2] at hrun
          have h1 := congrArg (fun x => x.1) hrun
          have h2 := congrArg (fun x => x.2.1) hrun
          have h3 := congrArg (fun x => x.2.2.1) hrun
          have h4 := congrArg (fun x => x.2.2.2) hrun
          exact ⟨h2.symm, h3.symm, fun _ => ⟨h1.symm, h4.symm⟩,
            fun hbf => absurd (hbf ▸ hb2) (by simp)⟩
        · rw [if_neg hb2] at hrun
          have h1 := congrArg (fun x => x.1) hrun
          have h2 := congrArg (fun x => x.2.1) hrun
          have h3 := congrArg (fun x => x.2.2.1) hrun
          have h4 := congrArg (fun x => x.2.2.2) hrun
          exact ⟨h2.symm, h3.symm, fun hbt => absurd hbt hb2,
            fun _ => ⟨h1.symm, h4.symm⟩⟩

/-- Witness for C9: a heap area over vpns `[4,6)` with `heap_bottom`
`4·4096` and `program_brk` `6·4096`; `sys_sbrk(-4096)` shrinks the area by
one page, returns the old break `24576` and sets `program_brk` to
`20480`. -/
theorem C9_sys_sbrk_witness :
    ∃ ret ms2 machine2 st2,
      sysSbrk
        { page_table := fun v => if v = 4 then some (50, 3)
            else if v = 5 then some (60, 3) else none,
          areas := [⟨4, 6,
            fun v => if v = 4 then some 50
              else if v = 5 then some 60 else none,
            MapTypeL.Framed, 3⟩] }
        { allocator := ⟨100, 200, []⟩, mem := fun _ _ => 0 }
        ⟨16384, 24576⟩ (-4096) = some (ret, ms2, machine2, st2) ∧
      ret = 24576 ∧ st2 = ⟨16384, 20480⟩ := by
  have hsome : (sysSbrk
      { page_table := fun v => if v = 4 then some (50, 3)
          else if v = 5 then some (60, 3) else none,
        areas := [⟨4, 6,
          fun v => if v = 4 then some 50
            else if v = 5 then some 60 else none,
          MapTypeL.Framed, 3⟩] }
      { allocator := ⟨100, 200, []⟩, mem := fun _ _ => 0 }
      ⟨16384, 24576⟩ (-4096)).isSome = true := by rfl
  rcases hr : sysSbrk
      { page_table := fun v => if v = 4 then some (50, 3)
          else if v = 5 then some (60, 3) else none,
        areas := [⟨4, 6,
          fun v => if v = 4 then some 50
            else if v = 5 then some 60 else none,
          MapTypeL.Framed, 3⟩] }
      { allocator := ⟨100, 200, []⟩, mem := fun _ _ => 0 }
      ⟨16384, 24576⟩ (-4096) with _ | ⟨⟨ret, ms2, machine2, st2⟩⟩
  · rw [hr] at hsome
    exact absurd hsome (by simp)
  · have hthm := C9_sys_sbrk _ ms2 _ machine2 _ st2 (-4096) ret hr
    obtain ⟨-, hshrink, -⟩ := hthm
    obtain ⟨r, hm, -, -, hsucc, -⟩ := hshrink (by norm_num) (by norm_num)
    have hb : (memShrinkTo
        { page_table := fun v => if v = 4 then some (50, 3)
            else if v = 5 then some (60, 3) else none,
          areas := [⟨4, 6,
            fun v => if v = 4 then some 50
              else if v = 5 then some 60 else none,
            MapTypeL.Framed, 3⟩] }
        { allocator := ⟨100, 200, []⟩, mem := fun _ _ => 0 }
        (⟨16384, 24576⟩ : BrkState).heap_bottom
        (((((⟨16384, 24576⟩ : BrkState).program_brk : Nat) : Int) + (-4096)).toNat)).map
        (fun r => r.2.2) = some true := by rfl
    rw [hm] at hb
    simp only [Option.map_some', Option.some.injEq] at hb
    obtain ⟨hret, hst2⟩ := hsucc hb
    refine ⟨ret, ms2, machine2, st2, rfl, ?_, ?_⟩
    · rw [hret]
      norm_num
    · rw [hst2]
      norm_num
      decide

end MiniOS
